import Mathlib

/-!
Verification of the library-access audit/grant tool (`check_users_library.py`).

The development shallowly embeds the script's logic-bearing functions:
JSON values are modelled by `JVal`, Python dicts by insertion-ordered
association lists, and the network by explicit response parameters
(`Except Unit JVal`: `.error` models a raised/transport exception that the
script swallows).  Machine behaviour of Python that the script relies on
(truthiness, `or`, `str()`, `in`, dict assignment semantics) is modelled by
the `py*` helpers below.
-/

/-- JSON values as decoded by `requests.Response.json()`. -/
inductive JVal where
  | null
  | bool (b : Bool)
  | num (n : Int)
  | str (s : String)
  | list (xs : List JVal)
  | obj (kvs : List (String × JVal))

/-- Python truthiness (`bool(x)`): `None`, `False`, `0`, `""`, `[]`, `\x7b\x7d` are falsy. -/
def truthy : JVal → Bool
  | .null => false
  | .bool b => b
  | .num n => n != 0
  | .str s => s ≠ ""
  | .list xs => !xs.isEmpty
  | .obj kvs => !kvs.isEmpty

/-- Python `a or b`: the first truthy operand, else the second. -/
def pyOr (a b : JVal) : JVal := if truthy a then a else b

/-- Python hashability: scalars are hashable, lists and dicts are not
(using one as a dict key raises `TypeError`). -/
def hashable : JVal → Bool
  | .list _ => false
  | .obj _ => false
  | _ => true

/-- Python `==` restricted to hashable (scalar) values — the only values the
script ever stores as dict keys (an unhashable key raises before insertion).
`True == 1` and `False == 0` hold in Python, so booleans compare numerically
with numbers. -/
def pyEqKey : JVal → JVal → Bool
  | .null, .null => true
  | .bool a, .bool b => a == b
  | .bool a, .num n => (if a then (1 : Int) else 0) == n
  | .num n, .bool a => n == (if a then (1 : Int) else 0)
  | .num a, .num b => a == b
  | .str a, .str b => a == b
  | _, _ => false

mutual
/-- Python `repr()` of a JSON value (string escaping elided; only reached
through `str()` of a container, which no claim's input exercises). -/
def pyRepr : JVal → String
  | .null => "None"
  | .bool true => "True"
  | .bool false => "False"
  | .num n => toString n
  | .str s => "'" ++ s ++ "'"
  | .list xs => "[" ++ pyReprList xs ++ "]"
  | .obj kvs => "\x7b" ++ pyReprKVs kvs ++ "\x7d"

/-- Comma-joined `repr()`s of list elements. -/
def pyReprList : List JVal → String
  | [] => ""
  | [x] => pyRepr x
  | x :: y :: xs => pyRepr x ++ ", " ++ pyReprList (y :: xs)

/-- Comma-joined `'key': repr(value)` pairs of a dict. -/
def pyReprKVs : List (String × JVal) → String
  | [] => ""
  | [(k, v)] => "'" ++ k ++ "': " ++ pyRepr v
  | (k, v) :: kv :: rest => "'" ++ k ++ "': " ++ pyRepr v ++ ", " ++ pyReprKVs (kv :: rest)
end

/-- Python `str()` of a JSON value. -/
def pyStr : JVal → String
  | .null => "None"
  | .bool true => "True"
  | .bool false => "False"
  | .num n => toString n
  | .str s => s
  | .list xs => "[" ++ pyReprList xs ++ "]"
  | .obj kvs => "\x7b" ++ pyReprKVs kvs ++ "\x7d"

/-- Python `str.lower` (ASCII, which is all the script's comparisons need). -/
def pyLower (s : String) : String := ⟨s.data.map Char.toLower⟩

/-- Code-point comparison of characters, as Python string comparison uses. -/
def charLt (a b : Char) : Bool := decide (a.toNat < b.toNat)

/-- Lexicographic `≤` on character lists: Python string `<=`. -/
def lexLe : List Char → List Char → Bool
  | [], _ => true
  | _ :: _, [] => false
  | a :: as, b :: bs => if a = b then lexLe as bs else charLt a b

/-- Python substring test `needle in hay`. -/
def hasSubstr (hay needle : String) : Bool :=
  hay.data.tails.any (fun t => needle.data.isPrefixOf t)

/-- A Python dict with string keys (a decoded JSON object). -/
abbrev Policy := List (String × JVal)

/-- Python `d.get(k)` on a JSON object: the stored value, or `None`. -/
def aget (kvs : Policy) (k : String) : JVal :=
  ((kvs.find? (fun kv => kv.1 == k)).map (fun kv => kv.2)).getD .null

/-- Python `d.get(k)` as an `Option`, distinguishing an absent key. -/
def pfind? (p : Policy) (k : String) : Option JVal :=
  (p.find? (fun kv => kv.1 == k)).map (fun kv => kv.2)

/-- Python `d[k] = v` on a string-keyed dict: replace the first (unique)
binding in place, else append at the end. -/
def pset : Policy → String → JVal → Policy
  | [], k, v => [(k, v)]
  | (k', v') :: rest, k, v =>
    if k' == k then (k', v) :: rest else (k', v') :: pset rest k v

/-- The id → name registry: a Python dict whose keys are the (hashable)
`ItemId` values and whose values are the names, insertion-ordered. -/
abbrev Registry := List (JVal × JVal)

/-- Python `k in mapping` for the registry. -/
def containsKeyJ (m : Registry) (k : JVal) : Bool :=
  m.any (fun kv => pyEqKey kv.1 k)

/-- Python `mapping.get(k)` for the registry, as an `Option`. -/
def lookupJ (m : Registry) (k : JVal) : Option JVal :=
  ((m.find? (fun kv => pyEqKey kv.1 k)).map (fun kv => kv.2))

/-- Python `mapping.get(k)` for the registry (`None` when absent). -/
def jgetD (m : Registry) (k : JVal) : JVal := (lookupJ m k).getD .null

/-- Python `mapping[k] = v`: replace the value of the first matching binding
in place (keeping its key and position), else append at the end. -/
def dsetJ : Registry → JVal → JVal → Registry
  | [], k, v => [(k, v)]
  | (k', v') :: rest, k, v =>
    if pyEqKey k' k then (k', v) :: rest else (k', v') :: dsetJ rest k v

/-- First-occurrence deduplication under an equality test (Python's `set()`
collapses equal elements; its iteration order is unspecified, so the model
fixes first-occurrence order, and no theorem below depends on that order). -/
def dedupByAux (eq : α → α → Bool) : List α → List α → List α
  | _, [] => []
  | seen, x :: xs =>
    if seen.any (fun y => eq y x) then dedupByAux eq seen xs
    else x :: dedupByAux eq (x :: seen) xs

/-- First-occurrence deduplication under an equality test. -/
def dedupBy (eq : α → α → Bool) (l : List α) : List α := dedupByAux eq [] l

/-- Fixed-size batches (`chunksize = 50` in `widen_mapping_with_items_api`),
via a structural fuel so that concrete evaluation reduces. -/
def chunksF : Nat → List String → List (List String)
  | 0, _ => []
  | _ + 1, [] => []
  | n + 1, l => l.take 50 :: chunksF n (l.drop 50)

/-- The batches `missing[i:i+50]` that the widening loop iterates over. -/
def chunks (l : List String) : List (List String) := chunksF l.length l

/-!  Source Aggregator — `fetch_virtual_folders` and
`widen_mapping_with_items_api` (src/check_users_library.py:73-152).
A network call / parse failure is an `Except.error`; the script's
`try/except: pass` keeps whatever was inserted before the failure, so the
record-processing loops return the partial registry together with an abort
flag (a mid-loop `TypeError` on an unhashable key, or a non-dict record's
`AttributeError`, aborts the surrounding `try`). -/

/-- Inner loop over `LibraryOptions.ItemIds` (lines 130-132): insert
`iid → name` only for truthy ids not already present; testing membership of
an unhashable id raises, aborting the parse. -/
def addIids (name : JVal) : List JVal → Registry → Registry × Bool
  | [], m => (m, false)
  | iid :: rest, m =>
    if truthy iid then
      if hashable iid then
        if containsKeyJ m iid then addIids name rest m
        else addIids name rest (dsetJ m iid name)
      else (m, true)
    else addIids name rest m

/-- One virtual-folder record (lines 119-132): `ItemId or Id` and `Name` are
inserted unconditionally when both are truthy (overwriting any previous
binding of that id), then any nested `LibraryOptions.ItemIds` are inserted
gap-filling only. -/
def vfStep (it : Policy) (m : Registry) : Registry × Bool :=
  let item_id := pyOr (aget it ("ItemId")) (aget it ("Id"))
  let name := aget it ("Name")
  if truthy item_id && truthy name && !hashable item_id then (m, true)
  else
    let m1 := if truthy item_id && truthy name then dsetJ m item_id name else m
    match aget it ("LibraryOptions") with
    | .obj opts =>
      match aget opts ("ItemIds") with
      | .list item_ids =>
        if truthy name && !item_ids.isEmpty then addIids name item_ids m1
        else (m1, false)
      | _ => (m1, false)
    | _ => (m1, false)

/-- The loop over virtual-folder records; a non-dict record raises
`AttributeError` on `.get`, aborting the parse with the registry so far. -/
def vfRecords : List JVal → Registry → Registry
  | [], m => m
  | .obj kvs :: rest, m =>
    let (m', ab) := vfStep kvs m
    if ab then m' else vfRecords rest m'
  | _ :: _, m => m

/-- Parse of the `/Library/VirtualFolders` response (lines 108-134): a list
is used directly; a dict contributes `Items or VirtualFolders or ItemsList`;
anything else (or a failed call) yields nothing. -/
def extractVF : Except Unit JVal → Registry
  | .error _ => []
  | .ok vf =>
    let containers : JVal :=
      match vf with
      | .list xs => .list xs
      | .obj kvs =>
        pyOr (aget kvs ("Items"))
          (pyOr (aget kvs ("VirtualFolders")) (aget kvs ("ItemsList")))
      | _ => .null
    match containers with
    | .list items => vfRecords items []
    | _ => []

/-- The loop over `/Library/MediaFolders` items (lines 143-148). -/
def mfRecords : List JVal → Registry → Registry
  | [], m => m
  | .obj kvs :: rest, m =>
    let _id := aget kvs ("Id")
    let name := aget kvs ("Name")
    if truthy _id && truthy name then
      if hashable _id then mfRecords rest (dsetJ m _id name) else m
    else mfRecords rest m
  | _ :: _, m => m

/-- Parse of the `/Library/MediaFolders` response (lines 138-150). -/
def extractMF : Except Unit JVal → Registry
  | .error _ => []
  | .ok mf =>
    match mf with
    | .obj kvs =>
      match aget kvs ("Items") with
      | .list items => mfRecords items []
      | _ => []
    | _ => []

/-- `fetch_virtual_folders` (lines 96-152): the media-folders fallback is
consulted only when the virtual-folders source yielded an empty mapping. -/
def fetch_virtual_folders (vfResp mfResp : Except Unit JVal) : Registry :=
  let mapping := extractVF vfResp
  if mapping.isEmpty then extractMF mfResp else mapping

/-- The `Items` list of a `/Items?Ids=...` response (line 85-86):
`data.get("Items") if isinstance(data, dict) else None`, kept only if a list. -/
def parseItems : JVal → Option (List JVal)
  | .obj kvs =>
    match aget kvs ("Items") with
    | .list l => some l
    | _ => none
  | _ => none

/-- Items of one batched lookup response; a failed call has none. -/
def respItems (r : Except Unit JVal) : List JVal :=
  match r with
  | .ok data => (parseItems data).getD []
  | .error _ => []

/-- The per-item loop of one widening batch (lines 87-91): insert
`Id → Name` when both truthy; a non-dict item or unhashable id raises,
which the per-batch `except` swallows keeping prior insertions. -/
def widenBatchItems : List JVal → Registry → Registry
  | [], m => m
  | .obj kvs :: rest, m =>
    let _id := aget kvs ("Id")
    let name := aget kvs ("Name")
    if truthy _id && truthy name then
      if hashable _id then widenBatchItems rest (dsetJ m _id name) else m
    else widenBatchItems rest m
  | _ :: _, m => m

/-- `widen_mapping_with_items_api` (lines 73-94): fill the registry for the
requested ids that are truthy and not yet known, in batches of 50; `resp`
models `jf.get("/Items", params=...)` applied to one batch of ids. -/
def widen_mapping_with_items_api (resp : List String → Except Unit JVal)
    (ids : List String) (known : Registry) : Registry :=
  let missing := ids.filter (fun i => i ≠ "" && !containsKeyJ known (.str i))
  (chunks missing).foldl
    (fun m batch =>
      match resp batch with
      | .error _ => m
      | .ok data =>
        match parseItems data with
        | some items => widenBatchItems items m
        | none => m)
    known

/-!  Target Resolver — the `--add-library` resolution block in `main`
(src/check_users_library.py:214-247).  The registry is taken string-typed
here, as the spec's data model states (`Library = \x7bid: string, name:
string\x7d`); the source's `isinstance(name, str)` guards are then always
true.  All comparisons in this block are Python `str` comparisons. -/

/-- Outcome of target resolution: exit codes 4 (ambiguous) and 5 (not
found), or a resolved target id. -/
inductive Resolution where
  | resolved (id : String)
  | ambiguous (ids : List String)
  | notFound
deriving DecidableEq

/-- Tier-2 candidates (line 223): ids whose name equals the target
case-insensitively. -/
def tierName (fm : List (String × String)) (target : String) : List String :=
  (fm.filter (fun kv => pyLower kv.2 == pyLower target)).map (fun kv => kv.1)

/-- Tier-3 candidates (line 235): ids whose name contains the target
case-insensitively. -/
def tierSub (fm : List (String × String)) (target : String) : List String :=
  (fm.filter (fun kv => hasSubstr (pyLower kv.2) (pyLower target))).map (fun kv => kv.1)

/-- The tiered resolution of `--add-library` (lines 214-247): exact id key
match, else case-insensitive exact name match, else case-insensitive
substring match; a unique candidate resolves, several are ambiguous, none
is not-found. -/
def resolve_target (fm : List (String × String)) (target : String) : Resolution :=
  if (fm.map (fun kv => kv.1)).contains target then .resolved target
  else
    match tierName fm target with
    | [m] => .resolved m
    | [] =>
      match tierSub fm target with
      | [m] => .resolved m
      | [] => .notFound
      | _ :: _ :: _ => .ambiguous (tierSub fm target)
    | _ :: _ :: _ => .ambiguous (tierName fm target)

/-!  Reconciler — the per-user grant loop in `main`
(src/check_users_library.py:256-319). -/

/-- Coercion `if not isinstance(x, list): x = []` (lines 264-265, 338-339). -/
def coerceList : JVal → List JVal
  | .list xs => xs
  | _ => []

/-- Normalization `[str(i) for i in ids if i]` (line 268 and inside
`ensure_list_add`): drop falsy entries, stringify the rest. -/
def normIds (xs : List JVal) : List String :=
  (xs.filter (fun x => truthy x)).map pyStr

/-- The allow-list read `policy.get("EnabledFolders") or
policy.get("EnabledFolderIds") or []` coerced to a list and normalized
(lines 263-268). -/
def enabledIdsOf (p : Policy) : List String :=
  normIds (coerceList
    (pyOr (aget p ("EnabledFolders")) (pyOr (aget p ("EnabledFolderIds")) (.list []))))

/-- `ensure_list_add` (lines 276-284): coerce the field to a list, drop
falsy entries and stringify, append the value if absent, store back. -/
def ensure_list_add (d : Policy) (key : String) (val : String) : Policy :=
  let cur := normIds (coerceList (aget d key))
  let cur := if cur.contains val then cur else cur ++ [val]
  pset d key (.list (cur.map JVal.str))

/-- The new policy built for a `NeedsGrant` user (lines 274-287): a shallow
copy updated at both legacy field names. -/
def newPolicyFor (p : Policy) (target : String) : Policy :=
  ensure_list_add (ensure_list_add p ("EnabledFolders") target) ("EnabledFolderIds") target

/-- The per-user reconciliation decision of the grant loop. -/
inductive Decision where
  | alreadyAll
  | alreadyHas
  | needsGrant
deriving DecidableEq

/-- Classification of one user's policy against the target (lines 258-271):
`EnableAllFolders` truthy skips; a normalized allow-list containing the
target skips; otherwise a grant is needed. -/
def classify (p : Policy) (target : String) : Decision :=
  if truthy (aget p ("EnableAllFolders")) then .alreadyAll
  else if (enabledIdsOf p).contains target then .alreadyHas
  else .needsGrant

/-- One user of the grant loop with writes taking effect: the stored policy
afterwards, and whether a grant was performed. -/
def grantStep (target : String) (p : Policy) : Policy × Bool :=
  match classify p target with
  | .needsGrant => (newPolicyFor p target, true)
  | _ => (p, false)

/-- The apply-mode grant run over the user list, all writes succeeding:
resulting stored policies and the `changed` count. -/
def runGrant (target : String) (ps : List Policy) : List Policy × Nat :=
  (ps.map (fun p => (grantStep target p).1),
   ps.countP (fun p => (grantStep target p).2))

/-!  Apply-mode write with method fallback (src/check_users_library.py:292-317). -/

/-- HTTP method of a policy write. -/
inductive Method where
  | put
  | post
deriving DecidableEq

/-- Result of one HTTP write attempt: success, an `HTTPError` carrying the
status code the handler managed to read (`he.response.status_code` can
itself fail, leaving no status), or any other exception. -/
inductive WriteRes where
  | ok
  | httpErr (status : Option Nat)
  | exc
deriving DecidableEq

/-- The path both the PUT and the POST retry use (lines 296, 308). -/
def userPolicyPath (uid : String) : String := "/Users/" ++ uid ++ "/Policy"

/-- The sequence of HTTP requests the write block emits for one user: the
PUT, followed by the POST retry exactly when the PUT raised with status 405. -/
def writeAttempts (uid : String) (body : Policy) (putRes : WriteRes) :
    List (Method × String × Policy) :=
  (Method.put, userPolicyPath uid, body) ::
    (match putRes with
     | .httpErr st =>
       if st = some 405 then [(Method.post, userPolicyPath uid, body)] else []
     | _ => [])

/-- Outcome of the write block (lines 293-317) as
`(granted, errored, postTried)`: a 405 PUT falls back to POST and counts as
granted if the POST succeeds; every other failure reaches the outer
`except`, counting one error. -/
def writeOutcome : WriteRes → WriteRes → Bool × Bool × Bool
  | .ok, _ => (true, false, false)
  | .httpErr st, postRes =>
    if st = some 405 then
      match postRes with
      | .ok => (true, false, true)
      | _ => (false, true, true)
    else (false, true, false)
  | .exc, _ => (false, true, false)

/-- The apply-mode loop over the users that reach the write (lines 256-317):
each user's `(PUT result, POST result)` contributes to `changed` or
`errors`, and the loop always advances to the next user. -/
def applyPhase (ws : List (WriteRes × WriteRes)) : Nat × Nat :=
  ws.foldl
    (fun acc w =>
      let o := writeOutcome w.1 w.2
      (acc.1 + (if o.1 then 1 else 0), acc.2 + (if o.2.1 then 1 else 0)))
    (0, 0)

/-!  Auditor/Reporter — the per-user audit loop in `main`
(src/check_users_library.py:332-371). -/

/-- Sort key `str.lower` of a displayed name (line 366).  `str.lower` raises
on a non-string; the registries the script builds from a well-formed server
hold only strings (see the registry well-formedness theorem), and the
theorems below restrict to that domain. -/
def keyLower : JVal → String
  | .str s => pyLower s
  | _ => ""

/-- The comparison `sorted(..., key=str.lower)` sorts by. -/
def sortKeyLe (a b : JVal) : Bool := lexLe (keyLower a).data (keyLower b).data

/-- The sort order on displayed names, as a relation. -/
def sortRel (a b : JVal) : Prop := sortKeyLe a b = true

instance : DecidableRel sortRel := fun a b => instDecidableEqBool (sortKeyLe a b) true

/-- The filter of the set comprehension on line 347:
`isinstance(fid, str) and fid`. -/
def isCustomId : JVal → Bool
  | .str s => s ≠ ""
  | _ => false

/-- `JVal.str` applied to a string id, `none` otherwise; used to pass the
audit's unknown ids to `widen_mapping_with_items_api`, whose own filter
(`if i and i not in known`) makes dropping non-string entries harmless:
such entries only arise in ALL mode, where they are registry keys and hence
already known. -/
def asStrId : JVal → Option String
  | .str s => some s
  | _ => none

/-- The ids the audit resolves for one user (lines 342-348): all registry
keys in ALL mode, else the deduplicated truthy string entries of the raw
allow-list. -/
def auditFids (reg : Registry) (p : Policy) : List JVal :=
  if truthy (aget p ("EnableAllFolders")) then reg.map (fun kv => kv.1)
  else
    dedupBy pyEqKey
      ((coerceList
          (pyOr (aget p ("EnabledFolders"))
            (pyOr (aget p ("EnabledFolderIds")) (.list [])))).filter isCustomId)

/-- The ids whose first lookup produced no truthy name (lines 353-358). -/
def auditUnknown (reg : Registry) (p : Policy) : List JVal :=
  (auditFids reg p).filter (fun f => !truthy (jgetD reg f))

/-- The registry after the audit's widening attempt for one user
(lines 361-362): unchanged when nothing was unknown. -/
def auditReg2 (resp : List String → Except Unit JVal) (reg : Registry) (p : Policy) :
    Registry :=
  if (auditUnknown reg p).isEmpty then reg
  else widen_mapping_with_items_api resp ((auditUnknown reg p).filterMap asStrId) reg

/-- One row of the audit report. -/
structure AuditRow where
  mode : String
  names : List JVal
  unresolved : List JVal

/-- The names resolved by the first lookup pass (lines 351-358): the truthy
names the pre-widening registry gives the user's ids. -/
def auditNames0 (reg : Registry) (p : Policy) : List JVal :=
  (auditFids reg p).filterMap (fun f =>
    let n := jgetD reg f
    if truthy n then some n else none)

/-- The names recovered by the widening pass (line 363): post-widening
lookups of the previously unknown ids. -/
def auditLate (resp : List String → Except Unit JVal) (reg : Registry) (p : Policy) :
    List JVal :=
  ((auditUnknown reg p).filter (fun f => containsKeyJ (auditReg2 resp reg p) f)).map
    (fun f => jgetD (auditReg2 resp reg p) f)

/-- The user's ids still unresolved after widening (line 364). -/
def auditUnresolved (resp : List String → Except Unit JVal) (reg : Registry)
    (p : Policy) : List JVal :=
  (auditUnknown reg p).filter (fun f => !containsKeyJ (auditReg2 resp reg p) f)

/-- The audit of one user (lines 332-371): resolve ids against the registry,
widen for the unknown ones, collect the names that resolved (before or after
widening), display them deduplicated and sorted case-insensitively, and
report the ids still unresolved. -/
def auditUser (resp : List String → Except Unit JVal) (reg : Registry) (p : Policy) :
    AuditRow × Registry :=
  (⟨(if truthy (aget p ("EnableAllFolders")) then "ALL" else "CUSTOM"),
    List.insertionSort sortRel
      (dedupBy pyEqKey (auditNames0 reg p ++ auditLate resp reg p)),
    auditUnresolved resp reg p⟩,
   auditReg2 resp reg p)

/-- The audit loop over all users (lines 332-364), threading the registry
(widening is global) and accumulating the run-wide unresolved ids
(`unknown_ids_all`, a set modelled by membership in the accumulated list). -/
def runAudit (resp : List String → Except Unit JVal) (reg : Registry) :
    List Policy → List AuditRow × List JVal × Registry
  | [] => ([], [], reg)
  | p :: ps =>
    let (row, reg2) := auditUser resp reg p
    let (rows, unresAll, regF) := runAudit resp reg2 ps
    (row :: rows, row.unresolved ++ unresAll, regF)

/-!  Spec-side definitions, for comparison with the code's behaviour. -/

/-- Spec-side allow-list update: the prior entries deduplicated preserving
their order, with the target appended at the end (§4.3 step 4 of the spec). -/
def specDedupAppend (prior : List String) (target : String) : List String :=
  dedupBy (fun a b => a == b) prior ++ [target]

/-- Spec-side allow-list read: the union of both field variants' normalized
entries (§3 of the spec reads both variants as a union). -/
def specUnionIds (p : Policy) : List String :=
  normIds (coerceList (aget p ("EnabledFolders"))) ++
    normIds (coerceList (aget p ("EnabledFolderIds")))

/-- The appended-once-at-the-end list the code actually builds per field. -/
def addOnce (l : List String) (t : String) : List String :=
  if l.contains t then l else l ++ [t]

/-- C1: target resolution is tiered — exact id key match, else
case-insensitive exact name match, else case-insensitive substring match,
each tier consulted only when the previous produced no candidate; no
candidate anywhere is not-found, a unique candidate at the deciding tier
resolves, several candidates at tier 2 or 3 are ambiguous.  On the registry
(1 → Films, 2 → Movies, 3 → Films HD): "Films" resolves to "1", "film" is
ambiguous between "1" and "3", and "2" resolves to "2". -/
theorem resolve_target_tiers :
    (∀ fm t, resolve_target fm t = .notFound ↔
      ((fm.map (fun kv => kv.1)).contains t = false ∧
        tierName fm t = [] ∧ tierSub fm t = [])) ∧
    (∀ fm t i, resolve_target fm t = .resolved i ↔
      (((fm.map (fun kv => kv.1)).contains t = true ∧ i = t) ∨
       ((fm.map (fun kv => kv.1)).contains t = false ∧ tierName fm t = [i]) ∨
       ((fm.map (fun kv => kv.1)).contains t = false ∧
         tierName fm t = [] ∧ tierSub fm t = [i]))) ∧
    (∀ fm t, (fm.map (fun kv => kv.1)).contains t = false →
      2 ≤ (tierName fm t).length →
      resolve_target fm t = .ambiguous (tierName fm t)) ∧
    (∀ fm t, (fm.map (fun kv => kv.1)).contains t = false →
      tierName fm t = [] → 2 ≤ (tierSub fm t).length →
      resolve_target fm t = .ambiguous (tierSub fm t)) ∧
    resolve_target [("1", "Films"), ("2", "Movies"), ("3", "Films HD")] ("Films")
      = .resolved ("1") ∧
    resolve_target [("1", "Films"), ("2", "Movies"), ("3", "Films HD")] ("film")
      = .ambiguous ["1", "3"] ∧
    resolve_target [("1", "Films"), ("2", "Movies"), ("3", "Films HD")] ("2")
      = .resolved ("2") := by
  refine ⟨?_, ?_, ?_, ?_, by decide, by decide, by decide⟩
  · intro fm t
    unfold resolve_target
    rcases h : (fm.map fun kv => kv.1).contains t with _ | _ <;> rw [h]
    · simp only [Bool.false_eq_true, if_false]
      rcases htn : tierName fm t with _ | ⟨a, _ | ⟨b, tl⟩⟩ <;>
        rcases hts : tierSub fm t with _ | ⟨c, _ | ⟨d, tl'⟩⟩ <;> simp [htn, hts]
    · simp
  · intro fm t i
    unfold resolve_target
    rcases h : (fm.map fun kv => kv.1).contains t with _ | _ <;> rw [h]
    · simp only [Bool.false_eq_true, if_false]
      rcases htn : tierName fm t with _ | ⟨a, _ | ⟨b, tl⟩⟩ <;>
        rcases hts : tierSub fm t with _ | ⟨c, _ | ⟨d, tl'⟩⟩ <;>
          simp [htn, hts, eq_comm]
    · simp [eq_comm]
  · intro fm t h h2
    unfold resolve_target
    rw [h]
    simp only [Bool.false_eq_true, if_false]
    rcases htn : tierName fm t with _ | ⟨a, _ | ⟨b, tl⟩⟩ <;>
      rw [htn] at h2 <;> simp at h2
  · intro fm t h htn h2
    unfold resolve_target
    rw [h, htn]
    simp only [Bool.false_eq_true, if_false]
    rcases hts : tierSub fm t with _ | ⟨c, _ | ⟨d, tl'⟩⟩ <;>
      rw [hts] at h2 <;> simp at h2

/-!  Dict and normalization lemmas. -/

/-- Reading back the key just stored. -/
lemma pfind?_pset_self (p : Policy) (k : String) (v : JVal) :
    pfind? (pset p k v) k = some v := by
  induction p with
  | nil => simp [pset, pfind?]
  | cons kv rest ih =>
    obtain ⟨k', v'⟩ := kv
    by_cases h : k' = k
    · simp [pset, pfind?, h]
    · simpa [pset, pfind?, h] using ih

/-- Storing one key leaves every other key's binding unchanged. -/
lemma pfind?_pset_ne (p : Policy) (k q : String) (v : JVal) (h : q ≠ k) :
    pfind? (pset p k v) q = pfind? p q := by
  induction p with
  | nil => simp [pset, pfind?, beq_iff_eq, Ne.symm h]
  | cons kv rest ih =>
    obtain ⟨k', v'⟩ := kv
    by_cases hk : k' = k
    · subst hk
      simp [pset, pfind?, beq_iff_eq, Ne.symm h]
    · by_cases hq : k' = q
      · subst hq
        simp [pset, pfind?, beq_iff_eq, hk]
      · simpa [pset, pfind?, beq_iff_eq, hk, hq] using ih

/-- `aget` is `pfind?` with `None` for an absent key. -/
lemma aget_eq_pfind? (p : Policy) (k : String) : aget p k = (pfind? p k).getD .null := rfl

/-- `aget` after storing the same key. -/
lemma aget_pset_self (p : Policy) (k : String) (v : JVal) : aget (pset p k v) k = v := by
  simp [aget_eq_pfind?, pfind?_pset_self]

/-- `aget` after storing a different key. -/
lemma aget_pset_ne (p : Policy) (k q : String) (v : JVal) (h : q ≠ k) :
    aget (pset p k v) q = aget p q := by
  simp [aget_eq_pfind?, pfind?_pset_ne p k q v h]

/-- Normalizing a list of Python strings just drops the empty ones. -/
lemma normIds_map_str (l : List String) :
    normIds (l.map JVal.str) = l.filter (fun s => s ≠ "") := by
  induction l with
  | nil => simp [normIds]
  | cons s rest ih =>
    by_cases h : s = ""
    · simpa [normIds, truthy, h] using ih
    · simpa [normIds, truthy, h, pyStr] using ih

/-- The target belongs to the appended-once list. -/
lemma mem_addOnce (l : List String) (t : String) : t ∈ addOnce l t := by
  unfold addOnce
  by_cases h : t ∈ l <;> simp [h]

/-- A falsy value coerces to the empty list. -/
lemma coerceList_falsy (v : JVal) (h : truthy v = false) : coerceList v = [] := by
  cases v <;> simp_all [truthy, coerceList, List.isEmpty_iff]

/-!  The two allow-list fields written by `ensure_list_add`. -/

/-- The `EnabledFolders` field of the updated policy. -/
lemma newPolicyFor_get_EF (p : Policy) (t : String) :
    aget (newPolicyFor p t) ("EnabledFolders") =
      .list ((addOnce (normIds (coerceList (aget p ("EnabledFolders")))) t).map JVal.str) := by
  unfold newPolicyFor ensure_list_add addOnce
  rw [aget_pset_ne _ _ _ _ (by decide), aget_pset_self]

/-- The `EnabledFolderIds` field of the updated policy. -/
lemma newPolicyFor_get_EFI (p : Policy) (t : String) :
    aget (newPolicyFor p t) ("EnabledFolderIds") =
      .list ((addOnce (normIds (coerceList (aget p ("EnabledFolderIds")))) t).map JVal.str) := by
  unfold newPolicyFor ensure_list_add addOnce
  rw [aget_pset_self, aget_pset_ne _ _ _ _ (by decide)]

/-- Policy with a duplicated prior allow-list entry (C2's counterexample input). -/
def cexPolicyDup : Policy := [("EnabledFolders", JVal.list [.str ("A"), .str ("A")])]

/-- C2 counterexample: for the fetched policy whose `EnabledFolders` is
`["A", "A"]` and target `"B"`, the user is classified `NeedsGrant`, yet the
written list is `["A", "A", "B"]` — the prior duplicate survives — while the
claim's deduplicated list would be `["A", "B"]`. -/
theorem ensure_list_add_keeps_duplicates :
    classify cexPolicyDup ("B") = .needsGrant ∧
    normIds (coerceList (aget (newPolicyFor cexPolicyDup ("B")) ("EnabledFolders"))) =
      ["A", "A", "B"] ∧
    specDedupAppend (normIds (coerceList (aget cexPolicyDup ("EnabledFolders")))) ("B") =
      ["A", "B"] ∧
    (["A", "A", "B"] : List String) ≠ ["A", "B"] :=
  ⟨by decide, by decide, by decide, by decide⟩

/-- C2 (amended): for a `NeedsGrant` user the new policy is a shallow copy of
the fetched one in which each of `EnabledFolders` and `EnabledFolderIds` is
its prior value coerced to a list, entries stringified with falsy entries
dropped (order and duplicates preserved), with the target id appended once at
the end when not already present. -/
theorem newPolicy_fields (p : Policy) (t : String) :
    aget (newPolicyFor p t) ("EnabledFolders") =
      .list ((addOnce (normIds (coerceList (aget p ("EnabledFolders")))) t).map JVal.str) ∧
    aget (newPolicyFor p t) ("EnabledFolderIds") =
      .list ((addOnce (normIds (coerceList (aget p ("EnabledFolderIds")))) t).map JVal.str) :=
  ⟨newPolicyFor_get_EF p t, newPolicyFor_get_EFI p t⟩

/-- Policy carrying entries in both allow-list variants (C3's counterexample input). -/
def cexPolicyBoth : Policy :=
  [("EnabledFolders", JVal.list [.str ("A")]), ("EnabledFolderIds", JVal.list [.str ("B")])]

/-- C3 counterexample: with `EnabledFolders = ["A"]` and
`EnabledFolderIds = ["B"]`, the code reads `["A"]`, not the union — the
entry `"B"` of the second variant is dropped. -/
theorem enabledIds_not_union :
    enabledIdsOf cexPolicyBoth = ["A"] ∧
    specUnionIds cexPolicyBoth = ["A", "B"] ∧
    ("B") ∈ specUnionIds cexPolicyBoth ∧
    ("B") ∉ enabledIdsOf cexPolicyBoth :=
  ⟨by decide, by decide, by decide, by decide⟩

/-- C3 (amended): the allow-list read considers both historical variants with
the first truthy one winning (not their union), the chosen value coerced to a
list; in particular a policy whose `EnabledFolders` is empty or absent but
whose `EnabledFolderIds` is non-empty yields the `EnabledFolderIds` entries. -/
theorem enabledIds_first_truthy (p : Policy) :
    enabledIdsOf p =
      (if truthy (aget p ("EnabledFolders")) then
        normIds (coerceList (aget p ("EnabledFolders")))
      else normIds (coerceList (aget p ("EnabledFolderIds")))) := by
  unfold enabledIdsOf pyOr
  by_cases h1 : truthy (aget p ("EnabledFolders"))
  · simp [h1]
  · by_cases h2 : truthy (aget p ("EnabledFolderIds"))
    · simp [h1, h2]
    · have h2f : truthy (aget p ("EnabledFolderIds")) = false := by simpa using h2
      rw [coerceList_falsy _ h2f]
      simp [h1, h2, normIds, coerceList]

/-!  C4 — idempotence of the grant reconciliation. -/

/-- A policy already carrying the target is never written or counted. -/
lemma grantStep_already (t : String) (p : Policy)
    (h : (enabledIdsOf p).contains t = true) : grantStep t p = (p, false) := by
  have hm : t ∈ enabledIdsOf p := by simpa using h
  unfold grantStep classify
  by_cases ha : truthy (aget p ("EnableAllFolders")) <;> simp [ha, hm]

/-- After a grant the stored `EnabledFolders` list makes the normalized
allow-list contain the target. -/
lemma enabledIdsOf_newPolicy_contains (t : String) (ht : t ≠ "") (p : Policy) :
    (enabledIdsOf (newPolicyFor p t)).contains t = true := by
  have hmem : t ∈ addOnce (normIds (coerceList (aget p ("EnabledFolders")))) t :=
    mem_addOnce _ _
  unfold enabledIdsOf
  rw [newPolicyFor_get_EF]
  generalize hL : addOnce (normIds (coerceList (aget p ("EnabledFolders")))) t = l at hmem
  cases l with
  | nil => cases hmem
  | cons a as =>
    have htr : truthy (JVal.list ((a :: as).map JVal.str)) = true := by simp [truthy]
    simp only [pyOr, htr, if_true]
    rw [show coerceList (JVal.list ((a :: as).map JVal.str)) = (a :: as).map JVal.str from rfl,
      normIds_map_str]
    simp [List.mem_filter, hmem, ht]

/-- Re-running the per-user reconciliation on the stored policy grants nothing. -/
lemma grantStep_twice (t : String) (ht : t ≠ "") (p : Policy) :
    (grantStep t ((grantStep t p).1)).2 = false := by
  unfold grantStep
  rcases hc : classify p t with _ | _ | _
  · simp [hc]
  · simp [hc]
  · simp only [hc]
    unfold classify
    by_cases ha : truthy (aget (newPolicyFor p t) ("EnableAllFolders"))
    · simp [ha]
    · have hm : t ∈ enabledIdsOf (newPolicyFor p t) := by
        simpa using enabledIdsOf_newPolicy_contains t ht p
      simp [ha, hm]

/-- C4: the grant operation is idempotent — a policy whose normalized
allow-list already contains the target id is neither written nor counted,
and a second apply-mode run over the policies stored by a first run (writes
taking effect, no external change) performs zero grants. -/
theorem grant_idempotent (t : String) (ht : t ≠ "") :
    (∀ p : Policy, (enabledIdsOf p).contains t = true → grantStep t p = (p, false)) ∧
    (∀ ps : List Policy, (runGrant t (runGrant t ps).1).2 = 0) := by
  refine ⟨fun p h => grantStep_already t p h, fun ps => ?_⟩
  unfold runGrant
  rw [List.countP_map, List.countP_eq_zero]
  intro p _
  simp [Function.comp, grantStep_twice t ht p]

/-- C4 witness: the idempotence theorem applied at the target `"L2"`. -/
theorem grant_idempotent_witness :
    (("L2" : String) ≠ "") ∧
    ((∀ p : Policy, (enabledIdsOf p).contains ("L2") = true →
        grantStep ("L2") p = (p, false)) ∧
     (∀ ps : List Policy, (runGrant ("L2") (runGrant ("L2") ps).1).2 = 0)) :=
  ⟨by decide, grant_idempotent ("L2") (by decide)⟩

/-- C8: a grant write modifies only the two allow-list fields — every other
key of the written policy is bound exactly as in the fetched policy. -/
theorem grant_frame (p : Policy) (t k : String)
    (h1 : k ≠ "EnabledFolders") (h2 : k ≠ "EnabledFolderIds") :
    pfind? (newPolicyFor p t) k = pfind? p k := by
  unfold newPolicyFor ensure_list_add
  rw [pfind?_pset_ne _ _ _ _ h2, pfind?_pset_ne _ _ _ _ h1]

/-- C8 witness: the frame theorem applied to the `IsAdministrator` key of a
concrete policy. -/
theorem grant_frame_witness :
    (("IsAdministrator" : String) ≠ "EnabledFolders") ∧
    (("IsAdministrator" : String) ≠ "EnabledFolderIds") ∧
    pfind? (newPolicyFor [("IsAdministrator", JVal.bool true)] ("L1")) ("IsAdministrator") =
      pfind? [("IsAdministrator", JVal.bool true)] ("IsAdministrator") :=
  ⟨by decide, by decide, grant_frame _ _ _ (by decide) (by decide)⟩

/-- C1 witness: the tier-2 ambiguity clause of the resolution theorem applied
to a registry with two case-insensitively identical names. -/
theorem resolve_target_tiers_witness :
    (([("1", "Films"), ("3", "films")].map (fun kv => kv.1)).contains ("FILMS") = false) ∧
    2 ≤ (tierName [("1", "Films"), ("3", "films")] ("FILMS")).length ∧
    resolve_target [("1", "Films"), ("3", "films")] ("FILMS")
      = .ambiguous (tierName [("1", "Films"), ("3", "films")] ("FILMS")) :=
  ⟨by decide, by decide, resolve_target_tiers.2.2.1 _ _ (by decide) (by decide)⟩

/-- C7: when the virtual-folders source yields any entry the media-folders
fallback is not consulted and the registry is exactly the virtual-folders
mapping; the fallback result is used only when the primary yielded nothing. -/
theorem fallback_only_when_empty (vf mf : Except Unit JVal) :
    (extractVF vf ≠ [] → fetch_virtual_folders vf mf = extractVF vf) ∧
    (extractVF vf = [] → fetch_virtual_folders vf mf = extractMF mf) := by
  refine ⟨fun h => ?_, fun h => ?_⟩ <;> simp [fetch_virtual_folders, h]

/-- A virtual-folders response holding one well-formed record. -/
def vfRespEx : Except Unit JVal :=
  .ok (.list [.obj [("ItemId", .str ("A")), ("Name", .str ("X"))]])

/-- A media-folders response holding one well-formed record. -/
def mfRespEx : Except Unit JVal :=
  .ok (.obj [("Items", .list [.obj [("Id", .str ("B")), ("Name", .str ("Y"))]])])

/-- C7 witness: with a non-empty primary response, the fallback response is
ignored. -/
theorem fallback_only_when_empty_witness :
    extractVF vfRespEx ≠ [] ∧
    fetch_virtual_folders vfRespEx mfRespEx = extractVF vfRespEx := by
  have h : extractVF vfRespEx ≠ [] := by
    rw [show extractVF vfRespEx = [(JVal.str ("A"), JVal.str ("X"))] from rfl]
    exact List.cons_ne_nil _ _
  exact ⟨h, (fallback_only_when_empty vfRespEx mfRespEx).1 h⟩

/-!  C10 — well-formedness of every registry insertion. -/

/-- Every binding of the registry has a truthy id and a truthy name. -/
def regOK (m : Registry) : Prop :=
  ∀ kv ∈ m, truthy kv.1 = true ∧ truthy kv.2 = true

/-- Assignment with a truthy key and value preserves well-formedness. -/
lemma regOK_dsetJ (m : Registry) (k v : JVal) (hm : regOK m)
    (hk : truthy k = true) (hv : truthy v = true) : regOK (dsetJ m k v) := by
  induction m with
  | nil =>
    intro kv hkv
    simp [dsetJ] at hkv
    simp [hkv, hk, hv]
  | cons kv0 rest ih =>
    obtain ⟨k', v'⟩ := kv0
    have hrest : regOK rest := fun kv h => hm kv (List.mem_cons_of_mem _ h)
    have hhead := hm (k', v') (List.mem_cons_self _ _)
    intro kv hkv
    by_cases he : pyEqKey k' k
    · simp [dsetJ, he] at hkv
      rcases hkv with h | h
      · simp [h]
        exact ⟨hhead.1, hv⟩
      · exact hm kv (List.mem_cons_of_mem _ h)
    · simp [dsetJ, he] at hkv
      rcases hkv with h | h
      · simp [h]
        exact hhead
      · exact ih hrest kv h

/-- The gap-filling nested-id loop preserves well-formedness. -/
lemma regOK_addIids (name : JVal) (hv : truthy name = true) (l : List JVal) :
    ∀ m : Registry, regOK m → regOK (addIids name l m).1 := by
  induction l with
  | nil => intro m hm; simpa [addIids] using hm
  | cons iid rest ih =>
    intro m hm
    by_cases ht : truthy iid
    · by_cases hh : hashable iid
      · by_cases hc : containsKeyJ m iid
        · simpa [addIids, ht, hh, hc] using ih m hm
        · simpa [addIids, ht, hh, hc] using ih _ (regOK_dsetJ m iid name hm ht hv)
      · simpa [addIids, ht, hh] using hm
    · simpa [addIids, ht] using ih m hm

/-- One virtual-folder record's insertions preserve well-formedness. -/
lemma regOK_vfStep (it : Policy) (m : Registry) (hm : regOK m) :
    regOK (vfStep it m).1 := by
  unfold vfStep
  by_cases habort :
      (truthy (pyOr (aget it ("ItemId")) (aget it ("Id"))) &&
        truthy (aget it ("Name")) &&
        !hashable (pyOr (aget it ("ItemId")) (aget it ("Id")))) = true
  · rw [if_pos habort]
    exact hm
  · rw [if_neg habort]
    have hm1 : regOK
        (if (truthy (pyOr (aget it ("ItemId")) (aget it ("Id"))) &&
            truthy (aget it ("Name"))) = true then
          dsetJ m (pyOr (aget it ("ItemId")) (aget it ("Id"))) (aget it ("Name"))
        else m) := by
      by_cases hg : (truthy (pyOr (aget it ("ItemId")) (aget it ("Id"))) &&
          truthy (aget it ("Name"))) = true
      · rw [if_pos hg]
        exact regOK_dsetJ _ _ _ hm ((Bool.and_eq_true _ _).mp hg).1
          ((Bool.and_eq_true _ _).mp hg).2
      · rw [if_neg hg]
        exact hm
    rcases hLO : aget it ("LibraryOptions") with _ | _ | _ | _ | _ | opts <;>
      (try dsimp only) <;> (try exact hm1)
    rcases hII : aget opts ("ItemIds") with _ | _ | _ | _ | item_ids | _ <;>
      (try dsimp only) <;> (try exact hm1)
    by_cases hg2 : (truthy (aget it ("Name")) && !item_ids.isEmpty) = true
    · rw [if_pos hg2]
      exact regOK_addIids _ ((Bool.and_eq_true _ _).mp hg2).1 _ _ hm1
    · rw [if_neg hg2]
      exact hm1

/-- The virtual-folders record loop preserves well-formedness. -/
lemma regOK_vfRecords (l : List JVal) : ∀ m : Registry, regOK m → regOK (vfRecords l m) := by
  induction l with
  | nil => intro m hm; simpa [vfRecords] using hm
  | cons it rest ih =>
    intro m hm
    cases it with
    | obj kvs =>
      rcases hs : vfStep kvs m with ⟨m', ab⟩
      have hm' : regOK m' := by
        have := regOK_vfStep kvs m hm
        rwa [hs] at this
      cases ab <;> simp [vfRecords, hs] <;> [exact ih m' hm'; exact hm']
    | null => simpa [vfRecords] using hm
    | bool b => simpa [vfRecords] using hm
    | num n => simpa [vfRecords] using hm
    | str s => simpa [vfRecords] using hm
    | list xs => simpa [vfRecords] using hm

/-- Every entry the virtual-folders source ever inserts is truthy. -/
lemma regOK_extractVF (vf : Except Unit JVal) : regOK (extractVF vf) := by
  have hnil : regOK ([] : Registry) := by intro kv h; cases h
  cases vf with
  | error e => intro kv h; cases h
  | ok v =>
    unfold extractVF
    cases v with
    | list xs => exact regOK_vfRecords xs [] hnil
    | obj kvs =>
      rcases hc : pyOr (aget kvs ("Items"))
          (pyOr (aget kvs ("VirtualFolders")) (aget kvs ("ItemsList"))) with
        _ | _ | _ | _ | items | _ <;> (try dsimp only) <;> rw [hc] <;>
        first
        | exact regOK_vfRecords items [] hnil
        | exact hnil
    | null => exact hnil
    | bool b => exact hnil
    | num n => exact hnil
    | str s => exact hnil

/-- The media-folders record loop preserves well-formedness. -/
lemma regOK_mfRecords (l : List JVal) : ∀ m : Registry, regOK m → regOK (mfRecords l m) := by
  induction l with
  | nil => intro m hm; simpa [mfRecords] using hm
  | cons it rest ih =>
    intro m hm
    cases it with
    | obj kvs =>
      by_cases hg : (truthy (aget kvs ("Id")) && truthy (aget kvs ("Name"))) = true
      · by_cases hh : hashable (aget kvs ("Id")) = true
        · have : regOK (dsetJ m (aget kvs ("Id")) (aget kvs ("Name"))) :=
            regOK_dsetJ _ _ _ hm ((Bool.and_eq_true _ _).mp hg).1
              ((Bool.and_eq_true _ _).mp hg).2
          simpa [mfRecords, hg, hh] using ih _ this
        · simpa [mfRecords, hg, hh] using hm
      · simpa [mfRecords, hg] using ih m hm
    | null => simpa [mfRecords] using hm
    | bool b => simpa [mfRecords] using hm
    | num n => simpa [mfRecords] using hm
    | str s => simpa [mfRecords] using hm
    | list xs => simpa [mfRecords] using hm

/-- Every entry the media-folders fallback ever inserts is truthy. -/
lemma regOK_extractMF (mf : Except Unit JVal) : regOK (extractMF mf) := by
  have hnil : regOK ([] : Registry) := by intro kv h; cases h
  cases mf with
  | error e => intro kv h; cases h
  | ok v =>
    unfold extractMF
    cases v with
    | obj kvs =>
      rcases hc : aget kvs ("Items") with _ | _ | _ | _ | items | _ <;>
        (try dsimp only) <;> rw [hc] <;> (try dsimp only) <;>
        first
        | exact regOK_mfRecords items [] hnil
        | exact hnil
    | null => exact hnil
    | bool b => exact hnil
    | num n => exact hnil
    | str s => exact hnil
    | list xs => exact hnil

/-- The per-batch widening loop preserves well-formedness. -/
lemma regOK_widenBatchItems (l : List JVal) :
    ∀ m : Registry, regOK m → regOK (widenBatchItems l m) := by
  induction l with
  | nil => intro m hm; simpa [widenBatchItems] using hm
  | cons it rest ih =>
    intro m hm
    cases it with
    | obj kvs =>
      by_cases hg : (truthy (aget kvs ("Id")) && truthy (aget kvs ("Name"))) = true
      · by_cases hh : hashable (aget kvs ("Id")) = true
        · have : regOK (dsetJ m (aget kvs ("Id")) (aget kvs ("Name"))) :=
            regOK_dsetJ _ _ _ hm ((Bool.and_eq_true _ _).mp hg).1
              ((Bool.and_eq_true _ _).mp hg).2
          simpa [widenBatchItems, hg, hh] using ih _ this
        · simpa [widenBatchItems, hg, hh] using hm
      · simpa [widenBatchItems, hg] using ih m hm
    | null => simpa [widenBatchItems] using hm
    | bool b => simpa [widenBatchItems] using hm
    | num n => simpa [widenBatchItems] using hm
    | str s => simpa [widenBatchItems] using hm
    | list xs => simpa [widenBatchItems] using hm

/-- Folding well-formedness-preserving steps preserves well-formedness. -/
lemma regOK_foldl {β : Type} (step : Registry → β → Registry)
    (hstep : ∀ m b, regOK m → regOK (step m b)) :
    ∀ (cs : List β) (m : Registry), regOK m → regOK (cs.foldl step m) := by
  intro cs
  induction cs with
  | nil => intro m hm; simpa using hm
  | cons b rest ih =>
    intro m hm
    rw [List.foldl_cons]
    exact ih _ (hstep m b hm)

/-- The whole widening call preserves well-formedness. -/
lemma regOK_widen (resp : List String → Except Unit JVal) (ids : List String)
    (known : Registry) (hm : regOK known) :
    regOK (widen_mapping_with_items_api resp ids known) := by
  unfold widen_mapping_with_items_api
  dsimp only
  apply regOK_foldl _ _ _ _ hm
  intro m b hm'
  cases hresp : resp b with
  | error e => simpa using hm'
  | ok data =>
    cases hit : parseItems data with
    | none => simpa [hit] using hm'
    | some items => simpa [hit] using regOK_widenBatchItems items m hm'

/-- C10: every entry ever inserted into the registry — by the
virtual-folders source, the media-folders fallback, their combination, or a
widening lookup — has a truthy id and a truthy name, so registry
well-formedness is an invariant of the whole run. -/
theorem registry_wellformed :
    (∀ vf, regOK (extractVF vf)) ∧
    (∀ mf, regOK (extractMF mf)) ∧
    (∀ vf mf, regOK (fetch_virtual_folders vf mf)) ∧
    (∀ resp ids known, regOK known →
      regOK (widen_mapping_with_items_api resp ids known)) := by
  refine ⟨regOK_extractVF, regOK_extractMF, fun vf mf => ?_, regOK_widen⟩
  unfold fetch_virtual_folders
  by_cases h : (extractVF vf).isEmpty = true
  · simpa [h] using regOK_extractMF mf
  · simpa [h] using regOK_extractVF vf

/-- C10 witness: widening an empty well-formed registry through an erroring
endpoint keeps it well-formed. -/
theorem registry_wellformed_witness :
    regOK ([] : Registry) ∧
    regOK (widen_mapping_with_items_api (fun _ => .error ()) ["x"] []) :=
  ⟨(by intro kv h; cases h),
   registry_wellformed.2.2.2 (fun _ => .error ()) ["x"] [] (by intro kv h; cases h)⟩

/-!  C5 — PUT with POST fallback on 405. -/

/-- Accumulator form of the apply-phase counters. -/
lemma applyPhase_go (ws : List (WriteRes × WriteRes)) :
    ∀ a b : Nat,
      ws.foldl (fun acc w =>
        let o := writeOutcome w.1 w.2
        (acc.1 + (if o.1 then 1 else 0), acc.2 + (if o.2.1 then 1 else 0))) (a, b) =
      (a + ws.countP (fun w => (writeOutcome w.1 w.2).1),
       b + ws.countP (fun w => (writeOutcome w.1 w.2).2.1)) := by
  induction ws with
  | nil => intro a b; simp
  | cons w rest ih =>
    intro a b
    rw [List.foldl_cons, ih]
    rcases h1 : (writeOutcome w.1 w.2).1 <;> rcases h2 : (writeOutcome w.1 w.2).2.1 <;>
      simp [List.countP_cons, h1, h2] <;> omega

/-- C5: the write is attempted with PUT; exactly when the PUT fails with
status 405 one POST retry is made, against the same path with the same body;
the write is a successful grant iff the PUT succeeded or the 405-PUT's POST
retry succeeded, and otherwise it is an error; the run counts one grant or
one error per user and never aborts early. -/
theorem write_method_fallback :
    (∀ uid body putRes, ((writeAttempts uid body putRes).length = 2 ↔
        putRes = .httpErr (some 405)) ∧
      (∀ a ∈ writeAttempts uid body putRes,
        a.2.1 = userPolicyPath uid ∧ a.2.2 = body) ∧
      (writeAttempts uid body putRes).head? =
        some (Method.put, userPolicyPath uid, body)) ∧
    (∀ putRes postRes,
      ((writeOutcome putRes postRes).2.2 = true ↔ putRes = .httpErr (some 405)) ∧
      ((writeOutcome putRes postRes).1 = true ↔
        putRes = .ok ∨ (putRes = .httpErr (some 405) ∧ postRes = .ok)) ∧
      ((writeOutcome putRes postRes).2.1 = !(writeOutcome putRes postRes).1)) ∧
    (∀ ws : List (WriteRes × WriteRes),
      applyPhase ws = (ws.countP (fun w => (writeOutcome w.1 w.2).1),
        ws.countP (fun w => (writeOutcome w.1 w.2).2.1))) := by
  refine ⟨fun uid body putRes => ⟨?_, ?_, ?_⟩, fun putRes postRes => ⟨?_, ?_, ?_⟩, fun ws => ?_⟩
  · rcases putRes with _ | st | _
    · simp [writeAttempts]
    · by_cases hst : st = some 405 <;> simp [writeAttempts, hst]
    · simp [writeAttempts]
  · intro a ha
    rcases putRes with _ | st | _
    · simp [writeAttempts] at ha
      simp [ha]
    · by_cases hst : st = some 405
      · simp [writeAttempts, hst] at ha
        rcases ha with rfl | rfl <;> simp
      · simp [writeAttempts, hst] at ha
        simp [ha]
    · simp [writeAttempts] at ha
      simp [ha]
  · simp [writeAttempts]
  · rcases putRes with _ | st | _
    · simp [writeOutcome]
    · by_cases hst : st = some 405
      · rcases postRes with _ | st2 | _ <;> simp [writeOutcome, hst]
      · simp [writeOutcome, hst]
    · simp [writeOutcome]
  · rcases putRes with _ | st | _
    · simp [writeOutcome]
    · by_cases hst : st = some 405
      · rcases postRes with _ | st2 | _ <;> simp [writeOutcome, hst]
      · simp [writeOutcome, hst]
    · simp [writeOutcome]
  · rcases putRes with _ | st | _
    · simp [writeOutcome]
    · by_cases hst : st = some 405
      · rcases postRes with _ | st2 | _ <;> simp [writeOutcome, hst]
      · simp [writeOutcome, hst]
    · simp [writeOutcome]
  · have := applyPhase_go ws 0 0
    simpa [applyPhase] using this

/-- C5 witness: for a 405 PUT, the POST retry goes to the same path with the
same body. -/
theorem write_method_fallback_witness :
    ((Method.post, userPolicyPath ("u1"), ([] : Policy)) ∈
      writeAttempts ("u1") [] (.httpErr (some 405))) ∧
    ((Method.post, userPolicyPath ("u1"), ([] : Policy)).2.1 = userPolicyPath ("u1") ∧
     (Method.post, userPolicyPath ("u1"), ([] : Policy)).2.2 = ([] : Policy)) := by
  have hmem : (Method.post, userPolicyPath ("u1"), ([] : Policy)) ∈
      writeAttempts ("u1") [] (.httpErr (some 405)) := by
    rw [show writeAttempts ("u1") [] (.httpErr (some 405)) =
      [(Method.put, userPolicyPath ("u1"), []),
       (Method.post, userPolicyPath ("u1"), [])] from rfl]
    exact List.mem_cons_of_mem _ (List.mem_cons_self _ _)
  exact ⟨hmem, ((write_method_fallback.1 ("u1") [] (.httpErr (some 405))).2.1) _ hmem⟩

/-!  C6 — append-only behaviour of the registry. -/

/-- C6 counterexample: two top-level records with the same id, in either
discovery source — after the first record the registry maps `A` to `"X"`,
and the second record overwrites it to `"Y"` (the assignments on lines 123
and 148 carry no `not in mapping` guard), so a later record of a discovery
source does change an already-mapped id. -/
theorem discovery_record_overwrites :
    lookupJ (vfRecords [.obj [("ItemId", .str ("A")), ("Name", .str ("X"))]] [])
        (.str ("A")) = some (.str ("X")) ∧
    lookupJ (vfRecords [.obj [("ItemId", .str ("A")), ("Name", .str ("X"))],
        .obj [("ItemId", .str ("A")), ("Name", .str ("Y"))]] [])
        (.str ("A")) = some (.str ("Y")) ∧
    lookupJ (mfRecords [.obj [("Id", .str ("A")), ("Name", .str ("X"))]] [])
        (.str ("A")) = some (.str ("X")) ∧
    lookupJ (mfRecords [.obj [("Id", .str ("A")), ("Name", .str ("X"))],
        .obj [("Id", .str ("A")), ("Name", .str ("Y"))]] [])
        (.str ("A")) = some (.str ("Y")) ∧
    (("X") : String) ≠ ("Y") :=
  ⟨rfl, rfl, rfl, rfl, by decide⟩

/-- Only a string compares equal to a string key. -/
lemma pyEqKey_str_right (x : JVal) (s : String) :
    pyEqKey x (.str s) = true → x = .str s := by
  cases x <;> simp [pyEqKey]

/-- Only a string compares equal to a string key (other side). -/
lemma pyEqKey_str_left (x : JVal) (s : String) :
    pyEqKey (.str s) x = true → x = .str s := by
  cases x <;> simp [pyEqKey]
  intro h
  exact h.symm

/-- Membership of a key is exactly lookup success. -/
lemma containsKeyJ_isSome (m : Registry) (k : JVal) :
    containsKeyJ m k = true ↔ (lookupJ m k).isSome = true := by
  induction m with
  | nil => simp [containsKeyJ, lookupJ]
  | cons kv rest ih =>
    by_cases he : pyEqKey kv.1 k = true <;>
      simp [containsKeyJ, lookupJ, List.find?_cons, he] <;>
      simpa [containsKeyJ, lookupJ] using ih

/-- Assigning any key that is not the queried string leaves its lookup
unchanged. -/
lemma lookupJ_dsetJ_at_str (m : Registry) (k v : JVal) (s : String)
    (h : k ≠ .str s) :
    lookupJ (dsetJ m k v) (.str s) = lookupJ m (.str s) := by
  have hks : pyEqKey k (.str s) = false := by
    rcases hb : pyEqKey k (.str s) with _ | _
    · rfl
    · exact absurd (pyEqKey_str_right k s hb) h
  induction m with
  | nil => simp [dsetJ, lookupJ, List.find?_cons, hks]
  | cons kv rest ih =>
    obtain ⟨k', v'⟩ := kv
    by_cases he : pyEqKey k' k = true
    · have hk's : pyEqKey k' (.str s) = false := by
        rcases hb : pyEqKey k' (.str s) with _ | _
        · rfl
        · have h1 : k' = .str s := pyEqKey_str_right k' s hb
          subst h1
          exact absurd (pyEqKey_str_left _ _ he) h
      simp [dsetJ, lookupJ, List.find?_cons, he, hk's]
    · by_cases hq : pyEqKey k' (.str s) = true <;>
        simpa [dsetJ, lookupJ, List.find?_cons, he, hq] using ih

/-- Assignment of a fresh key appends at the end. -/
lemma dsetJ_of_not_contains (m : Registry) (k v : JVal)
    (h : containsKeyJ m k = false) : dsetJ m k v = m ++ [(k, v)] := by
  induction m with
  | nil => simp [dsetJ]
  | cons kv rest ih =>
    simp only [containsKeyJ, List.any_cons, Bool.or_eq_false_iff] at h
    have hrest : containsKeyJ rest k = false := h.2
    obtain ⟨k', v'⟩ := kv
    simpa [dsetJ, h.1] using ih hrest

/-- A lookup that succeeds is unchanged by appending entries. -/
lemma lookupJ_append_of_contains (m l : Registry) (k : JVal)
    (h : containsKeyJ m k = true) : lookupJ (m ++ l) k = lookupJ m k := by
  induction m with
  | nil => simp [containsKeyJ] at h
  | cons kv rest ih =>
    by_cases he : pyEqKey kv.1 k = true
    · simp [lookupJ, List.find?_cons, he]
    · have hrest : containsKeyJ rest k = true := by
        simp only [containsKeyJ, List.any_cons, Bool.or_eq_true] at h
        rcases h with h1 | h2
        · exact absurd h1 he
        · exact h2
      simpa [lookupJ, List.find?_cons, he] using ih hrest

/-- Membership of a key survives appending entries. -/
lemma containsKeyJ_append_left (m l : Registry) (k : JVal)
    (h : containsKeyJ m k = true) : containsKeyJ (m ++ l) k = true := by
  simp only [containsKeyJ, List.any_append, Bool.or_eq_true]
  exact Or.inl h

/-- The gap-filling nested-id loop never changes an existing binding. -/
lemma addIids_preserves (name : JVal) :
    ∀ (l : List JVal) (m : Registry) (k : JVal), containsKeyJ m k = true →
      lookupJ ((addIids name l m).1) k = lookupJ m k := by
  intro l
  induction l with
  | nil => intro m k _; simp [addIids]
  | cons iid rest ih =>
    intro m k hk
    by_cases ht : truthy iid = true
    · by_cases hh : hashable iid = true
      · by_cases hc : containsKeyJ m iid = true
        · simpa [addIids, ht, hh, hc] using ih m k hk
        · have hc' : containsKeyJ m iid = false := by simpa using hc
          rw [show (addIids name (iid :: rest) m).1 =
              (addIids name rest (dsetJ m iid name)).1 from by simp [addIids, ht, hh, hc]]
          rw [dsetJ_of_not_contains m iid name hc']
          rw [ih _ k (containsKeyJ_append_left m _ k hk)]
          exact lookupJ_append_of_contains m _ k hk
      · simp [addIids, ht, hh]
    · simpa [addIids, ht] using ih m k hk

/-- Every id in any widening batch comes from the requested list. -/
lemma mem_chunksF (x : String) :
    ∀ (n : Nat) (l : List String) (c : List String),
      c ∈ chunksF n l → x ∈ c → x ∈ l := by
  intro n
  induction n with
  | zero => intro l c hc _; simp [chunksF] at hc
  | succ n ih =>
    intro l c hc hx
    cases l with
    | nil => simp [chunksF] at hc
    | cons a as =>
      rw [chunksF] at hc
      rcases List.mem_cons.mp hc with rfl | hmem
      · exact List.take_subset _ _ hx
      · exact List.drop_subset _ _ (ih _ c hmem hx)
      · simp

/-- The contract of the `/Items?Ids=...` endpoint: every returned record's
`Id` is one of the requested ids.  (The code itself never checks this; the
amended append-only property holds for servers honouring it.) -/
def RespScoped (resp : List String → Except Unit JVal) : Prop :=
  ∀ bs kvs, JVal.obj kvs ∈ respItems (resp bs) →
    ∃ s ∈ bs, aget kvs ("Id") = JVal.str s

/-- One widening batch never changes the lookup of a string key none of its
inserted ids equals. -/
lemma widenBatchItems_preserves (s : String) :
    ∀ (items : List JVal) (m : Registry),
      (∀ kvs, JVal.obj kvs ∈ items → aget kvs ("Id") ≠ JVal.str s) →
      lookupJ (widenBatchItems items m) (.str s) = lookupJ m (.str s) := by
  intro items
  induction items with
  | nil => intro m _; simp [widenBatchItems]
  | cons it rest ih =>
    intro m h
    cases it with
    | obj kvs =>
      have hid : aget kvs ("Id") ≠ .str s := h kvs (List.mem_cons_self _ _)
      have hrest : ∀ kvs', JVal.obj kvs' ∈ rest → aget kvs' ("Id") ≠ JVal.str s :=
        fun kvs' h' => h kvs' (List.mem_cons_of_mem _ h')
      by_cases hg : (truthy (aget kvs ("Id")) && truthy (aget kvs ("Name"))) = true
      · by_cases hh : hashable (aget kvs ("Id")) = true
        · rw [show widenBatchItems (JVal.obj kvs :: rest) m =
              widenBatchItems rest (dsetJ m (aget kvs ("Id")) (aget kvs ("Name"))) from
              by simp [widenBatchItems, hg, hh]]
          rw [ih _ hrest, lookupJ_dsetJ_at_str _ _ _ _ hid]
        · simp [widenBatchItems, hg, hh]
      · rw [show widenBatchItems (JVal.obj kvs :: rest) m = widenBatchItems rest m from
          by simp [widenBatchItems, hg]]
        exact ih _ hrest
    | null => simp [widenBatchItems]
    | bool b => simp [widenBatchItems]
    | num n => simp [widenBatchItems]
    | str t => simp [widenBatchItems]
    | list xs => simp [widenBatchItems]

/-- Folding widening batches whose ids all avoid the known key `s` keeps its
lookup unchanged. -/
lemma widen_fold_preserves (resp : List String → Except Unit JVal)
    (hresp : RespScoped resp) (known : Registry) (s : String)
    (hs : containsKeyJ known (.str s) = true) :
    ∀ (cs : List (List String)),
      (∀ c ∈ cs, ∀ x ∈ c, containsKeyJ known (.str x) = false) →
      ∀ m : Registry, lookupJ m (.str s) = lookupJ known (.str s) →
        lookupJ (cs.foldl (fun m batch =>
          match resp batch with
          | .error _ => m
          | .ok data =>
            match parseItems data with
            | some items => widenBatchItems items m
            | none => m) m) (.str s) = lookupJ known (.str s) := by
  intro cs
  induction cs with
  | nil => intro _ m hm; simpa using hm
  | cons batch rest ih =>
    intro hcs m hm
    rw [List.foldl_cons]
    refine ih (fun c hc x hx => hcs c (List.mem_cons_of_mem _ hc) x hx) _ ?_
    cases hresp' : resp batch with
    | error e => simpa using hm
    | ok data =>
      cases hit : parseItems data with
      | none => simpa [hit] using hm
      | some items =>
        have hids : ∀ kvs, JVal.obj kvs ∈ items → aget kvs ("Id") ≠ JVal.str s := by
          intro kvs hkvs heq
          have hin : JVal.obj kvs ∈ respItems (resp batch) := by
            rw [hresp']
            simpa [respItems, hit] using hkvs
          obtain ⟨t, htb, hts⟩ := hresp _ _ hin
          rw [heq] at hts
          have : t = s := by
            have := congrArg (fun v => v) hts
            cases hts
            rfl
          subst this
          have := hcs batch (List.mem_cons_self _ _) t htb
          rw [this] at hs
          cases hs
        simp only [hit]
        rw [widenBatchItems_preserves s items m hids]
        exact hm

/-- Widening never changes the binding of an id already in the registry,
for responses honouring the endpoint contract. -/
lemma widen_preserves (resp : List String → Except Unit JVal)
    (hresp : RespScoped resp) (ids : List String) (known : Registry)
    (s : String) (hs : containsKeyJ known (.str s) = true) :
    lookupJ (widen_mapping_with_items_api resp ids known) (.str s) =
      lookupJ known (.str s) := by
  unfold widen_mapping_with_items_api
  dsimp only
  refine widen_fold_preserves resp hresp known s hs _ ?_ known rfl
  intro c hc x hx
  have hxl : x ∈ ids.filter (fun i => i ≠ "" && !containsKeyJ known (.str i)) :=
    mem_chunksF x _ _ c hc hx
  have hp := List.of_mem_filter hxl
  have := ((Bool.and_eq_true _ _).mp hp).2
  simpa using this

/-- Widening a list of ids that are all empty or already resolved leaves the
registry untouched. -/
lemma widen_noop (resp : List String → Except Unit JVal) (ids : List String)
    (known : Registry)
    (h : ∀ i ∈ ids, i = "" ∨ containsKeyJ known (.str i) = true) :
    widen_mapping_with_items_api resp ids known = known := by
  unfold widen_mapping_with_items_api
  dsimp only
  have hnil : ids.filter (fun i => i ≠ "" && !containsKeyJ known (.str i)) = [] := by
    rw [List.filter_eq_nil]
    intro a ha
    rcases h a ha with h1 | h2
    · simp [h1]
    · simp [h2]
  rw [hnil]
  rfl

/-- C6 (amended): the registry is append-only except that a later top-level
record of either discovery source (virtual folders, line 123, or media
folders, line 148) bearing an already-mapped id overwrites its name — see
the counterexample; the remaining paths never change an existing binding: a
widening lookup (against an endpoint returning only the requested ids)
preserves every existing entry, widening ids that are all already resolved
is a no-op, and the nested `LibraryOptions.ItemIds` insertions are
gap-filling only. -/
theorem registry_append_only_amended :
    (∀ resp, RespScoped resp → ∀ ids known s, containsKeyJ known (.str s) = true →
      lookupJ (widen_mapping_with_items_api resp ids known) (.str s) =
        lookupJ known (.str s)) ∧
    (∀ resp ids known, (∀ i ∈ ids, i = "" ∨ containsKeyJ known (.str i) = true) →
      widen_mapping_with_items_api resp ids known = known) ∧
    (∀ name l m k, containsKeyJ m k = true →
      lookupJ ((addIids name l m).1) k = lookupJ m k) :=
  ⟨fun resp hresp ids known s hs => widen_preserves resp hresp ids known s hs,
   fun resp ids known h => widen_noop resp ids known h,
   fun name l m k hk => addIids_preserves name l m k hk⟩

/-- C6 witness: re-widening an already-resolved id against an erroring
endpoint leaves the registry unchanged. -/
theorem registry_append_only_witness :
    (∀ i ∈ (["A"] : List String), i = "" ∨
      containsKeyJ [(JVal.str ("A"), JVal.str ("X"))] (.str i) = true) ∧
    widen_mapping_with_items_api (fun _ => .error ()) ["A"]
        [(JVal.str ("A"), JVal.str ("X"))] =
      [(JVal.str ("A"), JVal.str ("X"))] := by
  have hyp : ∀ i ∈ (["A"] : List String), i = "" ∨
      containsKeyJ [(JVal.str ("A"), JVal.str ("X"))] (.str i) = true := by
    intro i hi
    rw [List.mem_singleton] at hi
    subst hi
    exact Or.inr (by decide)
  exact ⟨hyp, registry_append_only_amended.2.1 (fun _ => .error ()) ["A"] _ hyp⟩

/-!  C9 — per-user audit rows.  Order and shape lemmas for the displayed
names, then the characterization of the audit of one user. -/

/-- Characters with equal code points are equal. -/
lemma char_eq_of_toNat_eq (a b : Char) (h : a.toNat = b.toNat) : a = b :=
  Char.eq_of_val_eq (UInt32.toNat.inj h)

/-- The lexicographic comparison is total. -/
lemma lexLe_total : ∀ as bs : List Char, lexLe as bs = true ∨ lexLe bs as = true := by
  intro as
  induction as with
  | nil => intro bs; exact Or.inl rfl
  | cons a as ih =>
    intro bs
    cases bs with
    | nil => exact Or.inr rfl
    | cons b bs =>
      by_cases hab : a = b
      · subst hab
        rcases ih bs with h | h
        · exact Or.inl (by simp [lexLe, h])
        · exact Or.inr (by simp [lexLe, h])
      · have hne : a.toNat ≠ b.toNat := fun hn => hab (char_eq_of_toNat_eq a b hn)
        rcases Nat.lt_or_ge a.toNat b.toNat with h | h
        · exact Or.inl (by simp [lexLe, hab, charLt, h])
        · have hlt : b.toNat < a.toNat := lt_of_le_of_ne h (fun hn => hne hn.symm)
          have hba : ¬b = a := fun hn => hab hn.symm
          exact Or.inr (by simp [lexLe, hba, charLt, hlt])

/-- The lexicographic comparison is transitive. -/
lemma lexLe_trans : ∀ as bs cs : List Char,
    lexLe as bs = true → lexLe bs cs = true → lexLe as cs = true := by
  intro as
  induction as with
  | nil => intro bs cs _ _; rfl
  | cons a as ih =>
    intro bs cs h1 h2
    cases bs with
    | nil => simp [lexLe] at h1
    | cons b bs =>
      cases cs with
      | nil => simp [lexLe] at h2
      | cons c cs =>
        by_cases hab : a = b <;> by_cases hbc : b = c
        · subst hab; subst hbc
          simp only [lexLe, if_pos rfl] at h1 h2 ⊢
          exact ih _ _ h1 h2
        · subst hab
          simp only [lexLe, if_pos rfl] at h1
          simpa [lexLe, hbc] using h2
        · subst hbc
          simp only [lexLe, if_pos rfl] at h2
          simpa [lexLe, hab] using h1
        · simp only [lexLe, if_neg hab] at h1
          simp only [lexLe, if_neg hbc] at h2
          simp only [charLt, decide_eq_true_eq] at h1 h2
          have hac : a.toNat < c.toNat := Nat.lt_trans h1 h2
          have hane : a ≠ c := by
            intro hn
            subst hn
            exact Nat.lt_irrefl _ hac
          simp [lexLe, hane, charLt, hac]

instance : IsTotal JVal sortRel :=
  ⟨fun a b => by
    rcases lexLe_total (keyLower a).data (keyLower b).data with h | h
    · exact Or.inl h
    · exact Or.inr h⟩

instance : IsTrans JVal sortRel :=
  ⟨fun a b c h1 h2 => lexLe_trans _ _ _ h1 h2⟩

/-- Python `==` on hashable values is reflexive. -/
lemma pyEqKey_refl (k : JVal) (h : hashable k = true) : pyEqKey k k = true := by
  cases k <;> simp [hashable, pyEqKey] at h ⊢

/-- Python `==` on hashable values is symmetric. -/
lemma pyEqKey_symm (a b : JVal) : pyEqKey a b = pyEqKey b a := by
  cases a <;> cases b <;> simp [pyEqKey, beq_iff_eq, eq_comm]

/-- Everything removed by deduplication: members of the result are members
of the input that no seen element equals. -/
lemma dedupByAux_mem_strong (eq : α → α → Bool) :
    ∀ (l seen : List α) (a : α), a ∈ dedupByAux eq seen l →
      a ∈ l ∧ ∀ y ∈ seen, eq y a = false := by
  intro l
  induction l with
  | nil => intro seen a ha; simp [dedupByAux] at ha
  | cons x xs ih =>
    intro seen a ha
    by_cases hseen : (seen.any (fun y => eq y x)) = true
    · rw [show dedupByAux eq seen (x :: xs) = dedupByAux eq seen xs from
        by simp [dedupByAux, hseen]] at ha
      obtain ⟨h1, h2⟩ := ih seen a ha
      exact ⟨List.mem_cons_of_mem _ h1, h2⟩
    · rw [show dedupByAux eq seen (x :: xs) = x :: dedupByAux eq (x :: seen) xs from
        by simp [dedupByAux, hseen]] at ha
      rcases List.mem_cons.mp ha with rfl | hmem
      · refine ⟨List.mem_cons_self _ _, fun y hy => ?_⟩
        rcases hb : eq y a with _ | _
        · rfl
        · exact absurd (List.any_eq_true.mpr ⟨y, hy, hb⟩) hseen
      · obtain ⟨h1, h2⟩ := ih _ a hmem
        exact ⟨List.mem_cons_of_mem _ h1, fun y hy => h2 y (List.mem_cons_of_mem _ hy)⟩

/-- Deduplication keeps every member when the equality test is injective on
the input (as string equality is). -/
lemma dedupByAux_mem_iff (eq : α → α → Bool) (l0 : List α)
    (href : ∀ x ∈ l0, eq x x = true)
    (hinj : ∀ y ∈ l0, ∀ x ∈ l0, eq y x = true → y = x) :
    ∀ (l seen : List α), (∀ x ∈ l, x ∈ l0) → (∀ y ∈ seen, y ∈ l0) →
      ∀ a, a ∈ dedupByAux eq seen l ↔ (a ∈ l ∧ a ∉ seen) := by
  intro l
  induction l with
  | nil => intro seen _ _ a; simp [dedupByAux]
  | cons x xs ih =>
    intro seen hl hseen a
    have hxl0 : x ∈ l0 := hl x (List.mem_cons_self _ _)
    have hxs : ∀ y ∈ xs, y ∈ l0 := fun y hy => hl y (List.mem_cons_of_mem _ hy)
    by_cases hs : (seen.any (fun y => eq y x)) = true
    · have hxseen : x ∈ seen := by
        obtain ⟨y, hy, hyx⟩ := List.any_eq_true.mp hs
        have : y = x := hinj y (hseen y hy) x hxl0 hyx
        rwa [this] at hy
      rw [show dedupByAux eq seen (x :: xs) = dedupByAux eq seen xs from
        by simp [dedupByAux, hs]]
      rw [ih seen hxs hseen a]
      constructor
      · rintro ⟨h1, h2⟩
        exact ⟨List.mem_cons_of_mem _ h1, h2⟩
      · rintro ⟨h1, h2⟩
        rcases List.mem_cons.mp h1 with rfl | hmem
        · exact absurd hxseen h2
        · exact ⟨hmem, h2⟩
    · have hxnotseen : x ∉ seen := by
        intro hx
        exact hs (List.any_eq_true.mpr ⟨x, hx, href x hxl0⟩)
      rw [show dedupByAux eq seen (x :: xs) = x :: dedupByAux eq (x :: seen) xs from
        by simp [dedupByAux, hs]]
      have hseen' : ∀ y ∈ x :: seen, y ∈ l0 := by
        intro y hy
        rcases List.mem_cons.mp hy with rfl | hmem
        · exact hxl0
        · exact hseen y hmem
      constructor
      · intro ha
        rcases List.mem_cons.mp ha with rfl | hmem
        · exact ⟨List.mem_cons_self _ _, hxnotseen⟩
        · obtain ⟨h1, h2⟩ := (ih (x :: seen) hxs hseen' a).mp hmem
          exact ⟨List.mem_cons_of_mem _ h1,
            fun hy => h2 (List.mem_cons_of_mem _ hy)⟩
      · rintro ⟨h1, h2⟩
        rcases List.mem_cons.mp h1 with rfl | hmem
        · exact List.mem_cons_self _ _
        · by_cases hax : a = x
          · subst hax
            exact List.mem_cons_self _ _
          · refine List.mem_cons_of_mem _ ((ih (x :: seen) hxs hseen' a).mpr ⟨hmem, ?_⟩)
            intro hy
            rcases List.mem_cons.mp hy with h | h
            · exact hax h
            · exact h2 h

/-- The deduplicated list has no duplicates, when the equality test is
reflexive on the input. -/
lemma dedupByAux_nodup (eq : α → α → Bool) (l0 : List α)
    (href : ∀ x ∈ l0, eq x x = true) :
    ∀ (l seen : List α), (∀ x ∈ l, x ∈ l0) → (dedupByAux eq seen l).Nodup := by
  intro l
  induction l with
  | nil => intro seen _; simp [dedupByAux]
  | cons x xs ih =>
    intro seen hl
    have hxl0 : x ∈ l0 := hl x (List.mem_cons_self _ _)
    have hxs : ∀ y ∈ xs, y ∈ l0 := fun y hy => hl y (List.mem_cons_of_mem _ hy)
    by_cases hs : (seen.any (fun y => eq y x)) = true
    · rw [show dedupByAux eq seen (x :: xs) = dedupByAux eq seen xs from
        by simp [dedupByAux, hs]]
      exact ih seen hxs
    · rw [show dedupByAux eq seen (x :: xs) = x :: dedupByAux eq (x :: seen) xs from
        by simp [dedupByAux, hs]]
      refine List.nodup_cons.mpr ⟨?_, ih (x :: seen) hxs⟩
      intro hx
      obtain ⟨_, h2⟩ := dedupByAux_mem_strong eq xs (x :: seen) x hx
      have := h2 x (List.mem_cons_self _ _)
      rw [href x hxl0] at this
      cases this

/-- Lists of (non-empty) Python strings, as display names are. -/
def strNamesP (l : List JVal) : Prop := ∀ x ∈ l, ∃ t : String, x = JVal.str t

/-- `set()` on a list of strings keeps exactly its members. -/
lemma dedup_pyEqKey_mem (l : List JVal) (h : strNamesP l) (a : JVal) :
    a ∈ dedupBy pyEqKey l ↔ a ∈ l := by
  have href : ∀ x ∈ l, pyEqKey x x = true := by
    intro x hx
    obtain ⟨t, rfl⟩ := h x hx
    simp [pyEqKey]
  have hinj : ∀ y ∈ l, ∀ x ∈ l, pyEqKey y x = true → y = x := by
    intro y hy x hx hyx
    obtain ⟨t, rfl⟩ := h y hy
    exact (pyEqKey_str_left x t hyx).symm
  rw [show dedupBy pyEqKey l = dedupByAux pyEqKey [] l from rfl,
    dedupByAux_mem_iff pyEqKey l href hinj l [] (fun x hx => hx) (fun y hy => by cases hy) a]
  simp

/-- `set()` on a list of strings yields no duplicates. -/
lemma dedup_pyEqKey_nodup (l : List JVal) (h : strNamesP l) :
    (dedupBy pyEqKey l).Nodup := by
  have href : ∀ x ∈ l, pyEqKey x x = true := by
    intro x hx
    obtain ⟨t, rfl⟩ := h x hx
    simp [pyEqKey]
  exact dedupByAux_nodup pyEqKey l href l [] (fun x hx => hx)

/-- Pairwise-distinct registry keys (Python dicts cannot hold duplicates). -/
def keysDistinct : Registry → Bool
  | [] => true
  | kv :: rest => !containsKeyJ rest kv.1 && keysDistinct rest

/-- Well-formed registry: hashable keys, distinct keys, and names that are
non-empty strings — the shape every registry the script builds has (C10)
on a server returning string ids and names. -/
def wfReg (m : Registry) : Bool :=
  m.all (fun kv => hashable kv.1 &&
    (match kv.2 with | .str t => t ≠ "" | _ => false)) && keysDistinct m

/-- Values of a registry are non-empty strings. -/
def valuesOK (m : Registry) : Prop :=
  ∀ kv ∈ m, ∃ t : String, t ≠ "" ∧ kv.2 = JVal.str t

/-- A well-formed registry has string values. -/
lemma wfReg_values (m : Registry) (h : wfReg m = true) : valuesOK m := by
  intro kv hkv
  have := ((Bool.and_eq_true _ _).mp h).1
  have hv := (List.all_eq_true.mp this) kv hkv
  obtain ⟨h1, h2⟩ := (Bool.and_eq_true _ _).mp hv
  rcases hv2 : kv.2 with _ | _ | _ | _ | _ | _ <;> rw [hv2] at h2 <;> simp at h2
  exact ⟨_, by simpa using h2, rfl⟩

/-- A well-formed registry has hashable keys. -/
lemma wfReg_hashable (m : Registry) (h : wfReg m = true) :
    ∀ kv ∈ m, hashable kv.1 = true := by
  intro kv hkv
  have := ((Bool.and_eq_true _ _).mp h).1
  exact ((Bool.and_eq_true _ _).mp ((List.all_eq_true.mp this) kv hkv)).1

/-- A well-formed registry has distinct keys. -/
lemma wfReg_distinct (m : Registry) (h : wfReg m = true) : keysDistinct m = true :=
  ((Bool.and_eq_true _ _).mp h).2

/-- In a registry with hashable, distinct keys, looking a key up returns its
own value. -/
lemma lookupJ_self (m : Registry) (hh : ∀ kv ∈ m, hashable kv.1 = true)
    (hd : keysDistinct m = true) : ∀ kv ∈ m, lookupJ m kv.1 = some kv.2 := by
  induction m with
  | nil => intro kv hkv; cases hkv
  | cons kv0 rest ih =>
    obtain ⟨hd0, hdr⟩ := (Bool.and_eq_true _ _).mp hd
    intro kv hkv
    rcases List.mem_cons.mp hkv with rfl | hmem
    · have : pyEqKey kv.1 kv.1 = true :=
        pyEqKey_refl _ (hh kv (List.mem_cons_self _ _))
      simp [lookupJ, List.find?_cons, this]
    · have hne : pyEqKey kv0.1 kv.1 = false := by
        rcases hb : pyEqKey kv0.1 kv.1 with _ | _
        · rfl
        · have : containsKeyJ rest kv0.1 = true := by
            simp only [containsKeyJ, List.any_eq_true]
            exact ⟨kv, hmem, by rw [pyEqKey_symm]; exact hb⟩
          rw [this] at hd0
          cases hd0
      simpa [lookupJ, List.find?_cons, hne] using
        ih (fun kv' h' => hh kv' (List.mem_cons_of_mem _ h')) hdr kv hmem

/-- A successful lookup returns one of the registry's values. -/
lemma lookupJ_mem (m : Registry) (k v : JVal) (h : lookupJ m k = some v) :
    ∃ key, (key, v) ∈ m := by
  unfold lookupJ at h
  rcases hf : m.find? (fun kv => pyEqKey kv.1 k) with _ | kv
  · rw [hf] at h
    cases h
  · rw [hf] at h
    obtain ⟨k', v'⟩ := kv
    have hm := List.mem_of_find?_eq_some hf
    simp at h
    rw [h] at hm
    exact ⟨k', hm⟩

/-- The contract that `/Items` records carry string `Name`s (JSON names are
strings on a well-formed server; the audit's sort would raise otherwise). -/
def RespStrNames (resp : List String → Except Unit JVal) : Prop :=
  ∀ bs kvs, JVal.obj kvs ∈ respItems (resp bs) →
    ∃ t : String, aget kvs ("Name") = JVal.str t

/-- Assignment of a non-empty string value preserves string values. -/
lemma valuesOK_dsetJ (m : Registry) (k v : JVal) (hm : valuesOK m)
    (hv : ∃ t : String, t ≠ "" ∧ v = JVal.str t) : valuesOK (dsetJ m k v) := by
  induction m with
  | nil =>
    intro kv hkv
    simp [dsetJ] at hkv
    subst hkv
    simpa using hv
  | cons kv0 rest ih =>
    obtain ⟨k', v'⟩ := kv0
    have hrest : valuesOK rest := fun kv h => hm kv (List.mem_cons_of_mem _ h)
    have hhead := hm (k', v') (List.mem_cons_self _ _)
    intro kv hkv
    by_cases he : pyEqKey k' k = true
    · simp [dsetJ, he] at hkv
      rcases hkv with h | h
      · rw [show kv.2 = v from by rw [h]]
        exact hv
      · exact hm kv (List.mem_cons_of_mem _ h)
    · simp [dsetJ, he] at hkv
      rcases hkv with h | h
      · rw [h]
        exact hhead
      · exact ih hrest kv h

/-- One widening batch with string names preserves string values. -/
lemma valuesOK_widenBatchItems (items : List JVal)
    (hnames : ∀ kvs, JVal.obj kvs ∈ items → ∃ t : String, aget kvs ("Name") = JVal.str t) :
    ∀ m : Registry, valuesOK m → valuesOK (widenBatchItems items m) := by
  induction items with
  | nil => intro m hm; simpa [widenBatchItems] using hm
  | cons it rest ih =>
    intro m hm
    have hrest : ∀ kvs, JVal.obj kvs ∈ rest → ∃ t : String, aget kvs ("Name") = JVal.str t :=
      fun kvs h => hnames kvs (List.mem_cons_of_mem _ h)
    cases it with
    | obj kvs =>
      by_cases hg : (truthy (aget kvs ("Id")) && truthy (aget kvs ("Name"))) = true
      · by_cases hh : hashable (aget kvs ("Id")) = true
        · obtain ⟨t, ht⟩ := hnames kvs (List.mem_cons_self _ _)
          have htt : t ≠ "" := by
            have := ((Bool.and_eq_true _ _).mp hg).2
            rw [ht] at this
            simpa [truthy] using this
          have : valuesOK (dsetJ m (aget kvs ("Id")) (aget kvs ("Name"))) :=
            valuesOK_dsetJ _ _ _ hm ⟨t, htt, ht⟩
          simpa [widenBatchItems, hg, hh] using ih hrest _ this
        · simpa [widenBatchItems, hg, hh] using hm
      · simpa [widenBatchItems, hg] using ih hrest m hm
    | null => simpa [widenBatchItems] using hm
    | bool b => simpa [widenBatchItems] using hm
    | num n => simpa [widenBatchItems] using hm
    | str s => simpa [widenBatchItems] using hm
    | list xs => simpa [widenBatchItems] using hm

/-- The whole widening call preserves string values for responses with
string names. -/
lemma valuesOK_widen (resp : List String → Except Unit JVal)
    (hrn : RespStrNames resp) (ids : List String) (known : Registry)
    (hm : valuesOK known) :
    valuesOK (widen_mapping_with_items_api resp ids known) := by
  unfold widen_mapping_with_items_api
  dsimp only
  generalize chunks (ids.filter (fun i => i ≠ "" && !containsKeyJ known (.str i))) = cs
  induction cs generalizing known with
  | nil => simpa using hm
  | cons batch rest ih =>
    rw [List.foldl_cons]
    apply ih
    cases hresp : resp batch with
    | error e => simpa using hm
    | ok data =>
      cases hit : parseItems data with
      | none => simpa [hit] using hm
      | some items =>
        have hnames : ∀ kvs, JVal.obj kvs ∈ items →
            ∃ t : String, aget kvs ("Name") = JVal.str t := by
          intro kvs hkvs
          refine hrn batch kvs ?_
          rw [hresp]
          simpa [respItems, hit] using hkvs
        simpa [hit] using valuesOK_widenBatchItems items hnames known hm

/-- A contained key's default-lookup is a genuine lookup. -/
lemma jgetD_of_contains (m : Registry) (k : JVal) (h : containsKeyJ m k = true) :
    lookupJ m k = some (jgetD m k) := by
  have hs := (containsKeyJ_isSome m k).mp h
  rcases hl : lookupJ m k with _ | v
  · rw [hl] at hs
    cases hs
  · simp [jgetD, hl]

/-- Truthiness of the default-lookup means the lookup found that value. -/
lemma lookupJ_of_truthy (m : Registry) (k : JVal)
    (h : truthy (jgetD m k) = true) : lookupJ m k = some (jgetD m k) := by
  rcases hl : lookupJ m k with _ | v
  · rw [jgetD, hl] at h
    simp [truthy] at h
  · simp [jgetD, hl]

/-- Post-widening lookups of already-resolved ids are unchanged. -/
lemma auditReg2_preserves (resp : List String → Except Unit JVal) (reg : Registry)
    (p : Policy) (hrs : RespScoped resp) (s : String)
    (hc : containsKeyJ reg (.str s) = true) :
    lookupJ (auditReg2 resp reg p) (.str s) = lookupJ reg (.str s) := by
  unfold auditReg2
  by_cases he : (auditUnknown reg p).isEmpty = true
  · rw [if_pos he]
  · rw [if_neg he]
    exact widen_preserves resp hrs _ reg s hc

/-- The post-widening registry keeps string values. -/
lemma valuesOK_auditReg2 (resp : List String → Except Unit JVal) (reg : Registry)
    (p : Policy) (hw : wfReg reg = true) (hrn : RespStrNames resp) :
    valuesOK (auditReg2 resp reg p) := by
  unfold auditReg2
  by_cases he : (auditUnknown reg p).isEmpty = true
  · rw [if_pos he]
    exact wfReg_values reg hw
  · rw [if_neg he]
    exact valuesOK_widen resp hrn _ reg (wfReg_values reg hw)

/-- In the CUSTOM branch the resolved ids are non-empty strings. -/
lemma auditFids_custom_str (reg : Registry) (p : Policy)
    (hcust : truthy (aget p ("EnableAllFolders")) = false) :
    ∀ f ∈ auditFids reg p, ∃ s : String, s ≠ "" ∧ f = JVal.str s := by
  intro f hf
  unfold auditFids at hf
  rw [hcust] at hf
  simp only [Bool.false_eq_true, if_false] at hf
  have := (dedupByAux_mem_strong pyEqKey _ [] f hf).1
  have hfc := List.of_mem_filter this
  rcases f with _ | _ | _ | _ | _ | _ <;> simp [isCustomId] at hfc
  exact ⟨_, by simpa using hfc, rfl⟩

/-- In the ALL branch the resolved ids are exactly the registry keys. -/
lemma auditFids_all (reg : Registry) (p : Policy)
    (hall : truthy (aget p ("EnableAllFolders")) = true) :
    auditFids reg p = reg.map (fun kv => kv.1) := by
  unfold auditFids
  rw [hall]
  simp

/-- With a well-formed registry the ALL branch leaves nothing unknown. -/
lemma auditUnknown_all (reg : Registry) (p : Policy) (hw : wfReg reg = true)
    (hall : truthy (aget p ("EnableAllFolders")) = true) :
    auditUnknown reg p = [] := by
  unfold auditUnknown
  rw [auditFids_all reg p hall, List.filter_eq_nil_iff]
  intro f hf
  obtain ⟨kv, hkv, rfl⟩ := List.mem_map.mp hf
  have hself := lookupJ_self reg (wfReg_hashable reg hw) (wfReg_distinct reg hw) kv hkv
  obtain ⟨t, ht, hv⟩ := wfReg_values reg hw kv hkv
  simp [jgetD, hself, hv, truthy, ht]

/-- With a well-formed registry the ALL branch resolves every entry's name. -/
lemma auditNames0_all (reg : Registry) (p : Policy) (hw : wfReg reg = true)
    (hall : truthy (aget p ("EnableAllFolders")) = true) :
    auditNames0 reg p = reg.map (fun kv => kv.2) := by
  unfold auditNames0
  rw [auditFids_all reg p hall]
  have key : ∀ kv ∈ reg, jgetD reg kv.1 = kv.2 ∧ truthy kv.2 = true := by
    intro kv hkv
    have hself := lookupJ_self reg (wfReg_hashable reg hw) (wfReg_distinct reg hw) kv hkv
    obtain ⟨t, ht, hv⟩ := wfReg_values reg hw kv hkv
    exact ⟨by simp [jgetD, hself], by simp [hv, truthy, ht]⟩
  have gen : ∀ l : Registry, (∀ kv ∈ l, kv ∈ reg) →
      ((l.map (fun kv => kv.1)).filterMap (fun f =>
        let n := jgetD reg f
        if truthy n then some n else none)) = l.map (fun kv => kv.2) := by
    intro l
    induction l with
    | nil => intro _; simp
    | cons kv rest ih =>
      intro hl
      obtain ⟨hj, ht⟩ := key kv (hl kv (List.mem_cons_self _ _))
      simp only [List.map_cons, List.filterMap_cons, hj, ht, if_true]
      rw [ih (fun kv' h' => hl kv' (List.mem_cons_of_mem _ h'))]
  exact gen reg (fun kv h => h)

/-- Every displayed name is a string from the (possibly widened) registry. -/
lemma audit_names_str (resp : List String → Except Unit JVal) (reg : Registry)
    (p : Policy) (hw : wfReg reg = true) (hrn : RespStrNames resp) :
    strNamesP (auditNames0 reg p ++ auditLate resp reg p) := by
  intro x hx
  rcases List.mem_append.mp hx with h | h
  · unfold auditNames0 at h
    obtain ⟨f, _, hf⟩ := List.mem_filterMap.mp h
    simp only at hf
    by_cases ht : truthy (jgetD reg f) = true
    · rw [if_pos ht] at hf
      obtain ⟨hx'⟩ := hf
      have hl := lookupJ_of_truthy reg f ht
      obtain ⟨key, hkey⟩ := lookupJ_mem reg f (jgetD reg f) hl
      obtain ⟨t, _, hv⟩ := wfReg_values reg hw (key, jgetD reg f) hkey
      exact ⟨t, by simpa using hv⟩
    · rw [if_neg ht] at hf
      cases hf
  · unfold auditLate at h
    obtain ⟨f, hfm, rfl⟩ := List.mem_map.mp h
    have hfc := List.of_mem_filter hfm
    have hl := jgetD_of_contains _ f hfc
    obtain ⟨key, hkey⟩ := lookupJ_mem _ f _ hl
    obtain ⟨t, _, hv⟩ := valuesOK_auditReg2 resp reg p hw hrn (key, _) hkey
    exact ⟨t, by simpa using hv⟩

/-- CUSTOM-branch characterization of the collected names: exactly the
post-widening resolutions of the user's normalized allow-list ids. -/
lemma audit_custom_names (resp : List String → Except Unit JVal) (reg : Registry)
    (p : Policy) (hw : wfReg reg = true) (hrs : RespScoped resp)
    (hcust : truthy (aget p ("EnableAllFolders")) = false) (v : JVal) :
    v ∈ auditNames0 reg p ++ auditLate resp reg p ↔
      ∃ s : String, JVal.str s ∈ auditFids reg p ∧
        lookupJ (auditReg2 resp reg p) (.str s) = some v := by
  constructor
  · intro hv
    rcases List.mem_append.mp hv with h | h
    · unfold auditNames0 at h
      obtain ⟨f, hf, hfv⟩ := List.mem_filterMap.mp h
      simp only at hfv
      by_cases ht : truthy (jgetD reg f) = true
      · rw [if_pos ht] at hfv
        obtain ⟨⟩ := hfv
        obtain ⟨s, _, rfl⟩ := auditFids_custom_str reg p hcust f hf
        refine ⟨s, hf, ?_⟩
        have hl := lookupJ_of_truthy reg _ ht
        have hc : containsKeyJ reg (.str s) = true :=
          (containsKeyJ_isSome reg _).mpr (by simp [hl])
        rw [auditReg2_preserves resp reg p hrs s hc]
        exact hl
      · rw [if_neg ht] at hfv
        cases hfv
    · unfold auditLate at h
      obtain ⟨f, hfm, rfl⟩ := List.mem_map.mp h
      have hfu : f ∈ auditUnknown reg p := List.mem_of_mem_filter hfm
      have hff : f ∈ auditFids reg p := List.mem_of_mem_filter hfu
      obtain ⟨s, _, rfl⟩ := auditFids_custom_str reg p hcust f hff
      exact ⟨s, hff, jgetD_of_contains _ _ (List.of_mem_filter hfm)⟩
  · rintro ⟨s, hs, hl⟩
    by_cases hc : containsKeyJ reg (.str s) = true
    · have hpre := auditReg2_preserves resp reg p hrs s hc
      have hregl : lookupJ reg (.str s) = some v := by rw [← hpre]; exact hl
      obtain ⟨key, hkey⟩ := lookupJ_mem reg _ v hregl
      obtain ⟨t, ht, hv⟩ := wfReg_values reg hw (key, v) hkey
      have hv' : v = JVal.str t := by simpa using hv
      have htr : truthy (jgetD reg (.str s)) = true := by
        simp only [jgetD, hregl, Option.getD_some]
        simp [hv', truthy, ht]
      refine List.mem_append.mpr (Or.inl ?_)
      unfold auditNames0
      refine List.mem_filterMap.mpr ⟨.str s, hs, ?_⟩
      simp only [htr, if_true]
      simp [jgetD, hregl]
    · have hcf : containsKeyJ reg (.str s) = false := by simpa using hc
      have hunk : JVal.str s ∈ auditUnknown reg p := by
        unfold auditUnknown
        refine List.mem_filter.mpr ⟨hs, ?_⟩
        have : lookupJ reg (.str s) = none := by
          rcases hlr : lookupJ reg (.str s) with _ | w
          · rfl
          · have : containsKeyJ reg (.str s) = true :=
              (containsKeyJ_isSome reg _).mpr (by simp [hlr])
            rw [this] at hcf
            cases hcf
        simp [jgetD, this, truthy]
      have hc2 : containsKeyJ (auditReg2 resp reg p) (.str s) = true :=
        (containsKeyJ_isSome _ _).mpr (by simp [hl])
      refine List.mem_append.mpr (Or.inr ?_)
      unfold auditLate
      refine List.mem_map.mpr ⟨.str s, List.mem_filter.mpr ⟨hunk, by simp [hc2]⟩, ?_⟩
      simp [jgetD, hl]

/-- Displayed names are the deduplicated collected names, up to the sort. -/
lemma audit_names_mem (resp : List String → Except Unit JVal) (reg : Registry)
    (p : Policy) (hw : wfReg reg = true) (hrn : RespStrNames resp) (v : JVal) :
    v ∈ (auditUser resp reg p).1.names ↔
      v ∈ auditNames0 reg p ++ auditLate resp reg p := by
  show v ∈ List.insertionSort sortRel
      (dedupBy pyEqKey (auditNames0 reg p ++ auditLate resp reg p)) ↔ _
  rw [(List.perm_insertionSort sortRel _).mem_iff]
  exact dedup_pyEqKey_mem _ (audit_names_str resp reg p hw hrn) v

/-- The run-wide unresolved accumulator of one audit step. -/
lemma runAudit_cons (resp : List String → Except Unit JVal) (reg : Registry)
    (p : Policy) (ps : List Policy) :
    (runAudit resp reg (p :: ps)).2.1 =
      (auditUser resp reg p).1.unresolved ++
        (runAudit resp (auditUser resp reg p).2 ps).2.1 := by
  simp only [runAudit]

/-- C9: per-user audit — the mode is ALL exactly when `EnableAllFolders` is
truthy; in ALL mode the accessible names are the names of all registry
entries; in CUSTOM mode they are the post-widening resolutions of the
normalized allow-list ids (widening attempted for ids the registry lacked);
the displayed names are deduplicated and sorted case-insensitively; and the
user's still-unresolved ids all enter the run-wide unresolved set. -/
theorem audit_rows (resp : List String → Except Unit JVal) (reg : Registry)
    (p : Policy) (hw : wfReg reg = true) (hrs : RespScoped resp)
    (hrn : RespStrNames resp) :
    ((auditUser resp reg p).1.mode =
      (if truthy (aget p ("EnableAllFolders")) then "ALL" else "CUSTOM")) ∧
    (truthy (aget p ("EnableAllFolders")) = true →
      ∀ v, v ∈ (auditUser resp reg p).1.names ↔ ∃ k, (k, v) ∈ reg) ∧
    (truthy (aget p ("EnableAllFolders")) = false →
      ∀ v, v ∈ (auditUser resp reg p).1.names ↔
        ∃ s : String, JVal.str s ∈ auditFids reg p ∧
          lookupJ (auditReg2 resp reg p) (.str s) = some v) ∧
    ((auditUser resp reg p).1.names.Pairwise sortRel) ∧
    ((auditUser resp reg p).1.names.Nodup) ∧
    (∀ f, f ∈ (auditUser resp reg p).1.unresolved ↔
      f ∈ auditUnknown reg p ∧ containsKeyJ (auditReg2 resp reg p) f = false) ∧
    (∀ ps f, f ∈ (auditUser resp reg p).1.unresolved →
      f ∈ (runAudit resp reg (p :: ps)).2.1) := by
  refine ⟨rfl, ?_, ?_, ?_, ?_, ?_, ?_⟩
  · intro hall v
    have hlate : auditLate resp reg p = [] := by
      unfold auditLate
      rw [auditUnknown_all reg p hw hall]
      rfl
    rw [audit_names_mem resp reg p hw hrn v, hlate, List.append_nil,
      auditNames0_all reg p hw hall]
    constructor
    · intro hv
      obtain ⟨a, ha, rfl⟩ := List.mem_map.mp hv
      exact ⟨a.1, by simpa using ha⟩
    · rintro ⟨k, hk⟩
      exact List.mem_map.mpr ⟨(k, v), hk, rfl⟩
  · intro hcust v
    rw [audit_names_mem resp reg p hw hrn v]
    exact audit_custom_names resp reg p hw hrs hcust v
  · exact List.sorted_insertionSort sortRel _
  · exact ((List.perm_insertionSort sortRel _).nodup_iff).mpr
      (dedup_pyEqKey_nodup _ (audit_names_str resp reg p hw hrn))
  · intro f
    show f ∈ auditUnresolved resp reg p ↔ _
    unfold auditUnresolved
    rw [List.mem_filter]
    simp
  · intro ps f hf
    rw [runAudit_cons]
    exact List.mem_append_left _ hf

/-- C9 witness: the audit theorem applied to a one-entry registry, an
erroring lookup endpoint, and an allow-all user, whose row has mode ALL. -/
theorem audit_rows_witness :
    wfReg [(JVal.str ("L1"), JVal.str ("Kids"))] = true ∧
    (auditUser (fun _ => (.error () : Except Unit JVal))
        [(JVal.str ("L1"), JVal.str ("Kids"))]
        [("EnableAllFolders", JVal.bool true)]).1.mode = "ALL" := by
  have h1 : wfReg [(JVal.str ("L1"), JVal.str ("Kids"))] = true := by decide
  have h2 : RespScoped (fun _ => (.error () : Except Unit JVal)) := by
    intro bs kvs h
    simp [respItems] at h
  have h3 : RespStrNames (fun _ => (.error () : Except Unit JVal)) := by
    intro bs kvs h
    simp [respItems] at h
  refine ⟨h1, ?_⟩
  have hmode := (audit_rows (fun _ => (.error () : Except Unit JVal))
    [(JVal.str ("L1"), JVal.str ("Kids"))]
    [("EnableAllFolders", JVal.bool true)] h1 h2 h3).1
  rw [hmode]
  decide
